import Mathlib

/-!
Shallow embedding of the LMF3 memory engine (TypeScript sources) in Lean 4,
with theorems settling the frozen specification claims.

Conventions used throughout:
* JavaScript numbers are modelled by `JsNum` (an exact-rational carrier with
  `nan` and signed infinities); SQLite integer ids, sizes and millisecond
  timestamps are modelled by `ℕ`/`ℤ`; monetary-free float arithmetic that the
  claims depend on only at exactly representable points is done in `ℚ`.
* SQLite result sets are Lean lists of rows; `JS Array.prototype.sort`
  (stable since ES2019) is modelled by the stable insertion sort `jsSort`.
* External I/O (the embedding HTTP service, the LLM subprocess, `fs` calls)
  is passed in as explicit data: an `Option`/`Except` outcome or an oracle
  function, so that every modelled code path is a total Lean function.
-/

namespace LMF

/-- Fragment of IEEE-754 double semantics needed by the claims: `nan`, the two
infinities, and exact (rational) finite values. -/
inductive JsNum where
  | nan
  | inf
  | neginf
  | num (q : ℚ)
deriving DecidableEq

/-- JS `+` on numbers (finite values exact; `-0` not distinguished). -/
def jsAdd : JsNum → JsNum → JsNum
  | JsNum.nan, _ => JsNum.nan
  | _, JsNum.nan => JsNum.nan
  | JsNum.inf, JsNum.neginf => JsNum.nan
  | JsNum.neginf, JsNum.inf => JsNum.nan
  | JsNum.inf, _ => JsNum.inf
  | _, JsNum.inf => JsNum.inf
  | JsNum.neginf, _ => JsNum.neginf
  | _, JsNum.neginf => JsNum.neginf
  | JsNum.num a, JsNum.num b => JsNum.num (a + b)

/-- JS unary minus on numbers. -/
def jsNeg : JsNum → JsNum
  | JsNum.nan => JsNum.nan
  | JsNum.inf => JsNum.neginf
  | JsNum.neginf => JsNum.inf
  | JsNum.num a => JsNum.num (-a)

/-- JS `-` on numbers. -/
def jsSub (a b : JsNum) : JsNum := jsAdd a (jsNeg b)

/-- JS `*` on numbers (`0 * ±∞ = NaN`; sign of zero not distinguished). -/
def jsMul : JsNum → JsNum → JsNum
  | JsNum.nan, _ => JsNum.nan
  | _, JsNum.nan => JsNum.nan
  | JsNum.inf, JsNum.inf => JsNum.inf
  | JsNum.inf, JsNum.neginf => JsNum.neginf
  | JsNum.neginf, JsNum.inf => JsNum.neginf
  | JsNum.neginf, JsNum.neginf => JsNum.inf
  | JsNum.inf, JsNum.num b =>
      if b = 0 then JsNum.nan else if 0 < b then JsNum.inf else JsNum.neginf
  | JsNum.num a, JsNum.inf =>
      if a = 0 then JsNum.nan else if 0 < a then JsNum.inf else JsNum.neginf
  | JsNum.neginf, JsNum.num b =>
      if b = 0 then JsNum.nan else if 0 < b then JsNum.neginf else JsNum.inf
  | JsNum.num a, JsNum.neginf =>
      if a = 0 then JsNum.nan else if 0 < a then JsNum.neginf else JsNum.inf
  | JsNum.num a, JsNum.num b => JsNum.num (a * b)

/-- JS `/` on numbers: `0/0 = NaN`, `x/0 = ±∞` for finite `x ≠ 0`,
`x/±∞ = 0` for finite `x`, `±∞/±∞ = NaN`. -/
def jsDiv : JsNum → JsNum → JsNum
  | JsNum.nan, _ => JsNum.nan
  | _, JsNum.nan => JsNum.nan
  | JsNum.inf, JsNum.inf => JsNum.nan
  | JsNum.inf, JsNum.neginf => JsNum.nan
  | JsNum.neginf, JsNum.inf => JsNum.nan
  | JsNum.neginf, JsNum.neginf => JsNum.nan
  | JsNum.inf, JsNum.num b => if 0 ≤ b then JsNum.inf else JsNum.neginf
  | JsNum.neginf, JsNum.num b => if 0 ≤ b then JsNum.neginf else JsNum.inf
  | JsNum.num _, JsNum.inf => JsNum.num 0
  | JsNum.num _, JsNum.neginf => JsNum.num 0
  | JsNum.num a, JsNum.num b =>
      if b = 0 then
        if a = 0 then JsNum.nan else if 0 < a then JsNum.inf else JsNum.neginf
      else JsNum.num (a / b)

/-- Stable insertion of `x` into a list: `x` is placed before the first
element `y` with `le x y` (so equal elements keep their original order). -/
def stableInsert (le : α → α → Bool) (x : α) : List α → List α
  | [] => [x]
  | y :: ys => if le x y then x :: y :: ys else y :: stableInsert le x ys

/-- Model of `Array.prototype.sort` with a consistent comparator: a stable
sort placing `a` before `b` whenever `le a b`. -/
def jsSort (le : α → α → Bool) (l : List α) : List α :=
  l.foldr (stableInsert le) []

/- ===================================================================
   src/lib/embeddings.ts
   =================================================================== -/

/-- Constant `EMBEDDING_DIMENSIONS = 768` (src/lib/embeddings.ts). -/
def EMBEDDING_DIMENSIONS : ℕ := 768

/-- Default `EMBEDDING_MODEL` (src/lib/embeddings.ts). -/
def EMBEDDING_MODEL : String := "nomic-embed-text"

/-- Result record returned by `embed` (src/lib/embeddings.ts). Vector entries
returned by the service are finite doubles, modelled as exact rationals. -/
structure EmbeddingResult where
  embedding : List ℚ
  model : String
  dimensions : ℕ
deriving DecidableEq

/-- Function `embedBatch` (src/lib/embeddings.ts lines 50-73).  The network call
`embed` is passed in as the oracle `f`; the `try`/`catch` around each call
pushes the placeholder `{embedding: [], model, dimensions: 0}` on failure. -/
def embedBatch (f : String → Except String EmbeddingResult) :
    List String → List EmbeddingResult
  | [] => []
  | t :: ts =>
      (match f t with
        | Except.ok r => r
        | Except.error _ => ⟨[], EMBEDDING_MODEL, 0⟩) :: embedBatch f ts

/-- Little-endian IEEE-754 binary32 decoding of four bytes, the semantics of
Node's `Buffer.readFloatLE` at an in-bounds offset. -/
def decodeF32LE (b0 b1 b2 b3 : ℕ) : JsNum :=
  let bits : ℕ := b0 % 256 + 256 * (b1 % 256) + 65536 * (b2 % 256) + 16777216 * (b3 % 256)
  let sign : Bool := decide (2 ^ 31 ≤ bits)
  let e : ℕ := bits / 2 ^ 23 % 256
  let m : ℕ := bits % 2 ^ 23
  if e = 255 then
    if m = 0 then (if sign then JsNum.neginf else JsNum.inf) else JsNum.nan
  else
    let mag : ℚ :=
      if e = 0 then (m : ℚ) / 2 ^ 149
      else ((2 ^ 23 + m : ℕ) : ℚ) * 2 ^ e / 2 ^ 150
    JsNum.num (if sign then -mag else mag)

/-- Function `blobToEmbedding` (src/lib/embeddings.ts lines 89-95).  The source loops
`for (i = 0; i < blob.length; i += 4)` pushing `blob.readFloatLE(i)`;
`readFloatLE` throws `ERR_OUT_OF_RANGE` when fewer than 4 bytes remain, so a
trailing group of 1-3 bytes is an error.  There is no check at all against an
expected dimension count. -/
def blobToEmbedding : List ℕ → Except String (List JsNum)
  | [] => Except.ok []
  | b0 :: b1 :: b2 :: b3 :: rest =>
      match blobToEmbedding rest with
      | Except.ok vs => Except.ok (decodeF32LE b0 b1 b2 b3 :: vs)
      | Except.error e => Except.error e
  | _ => Except.error "The value of offset is out of range"

/-- One iteration of the similarity loop in `cosineSimilarity`, updating the
accumulator `(dotProduct, normA, normB)`. -/
def cosineStep (acc : JsNum × JsNum × JsNum) (xy : JsNum × JsNum) :
    JsNum × JsNum × JsNum :=
  (jsAdd acc.1 (jsMul xy.1 xy.2),
   jsAdd acc.2.1 (jsMul xy.1 xy.1),
   jsAdd acc.2.2 (jsMul xy.2 xy.2))

/-- The accumulator state of the similarity loop in `cosineSimilarity`:
`(dotProduct, normA, normB)`. -/
def cosineFold (pairs : List (JsNum × JsNum)) : JsNum × JsNum × JsNum :=
  pairs.foldl cosineStep (JsNum.num 0, JsNum.num 0, JsNum.num 0)

/-- Function `cosineSimilarity` (src/lib/embeddings.ts lines 100-116).  `Math.sqrt` is
passed in as an oracle (theorems only ever constrain it at exactly
representable points such as `sqrt 0 = 0`).  The only guard in the source is
the dimension check, which throws; the division by the product of norms is
unguarded. -/
def cosineSimilarity (sqrt : JsNum → JsNum) (a b : List JsNum) :
    Except String JsNum :=
  if a.length ≠ b.length then
    Except.error "Embeddings must have same dimensions"
  else
    let acc := cosineFold (a.zip b)
    Except.ok (jsDiv acc.1 (jsMul (sqrt acc.2.1) (sqrt acc.2.2)))

/-- One ranked list's pass of `reciprocalRankFusion`: walk the list with a
running zero-based `rank`, adding `1 / (k + rank + 1)` to the entry's fused
score (`fusedScores.get(item.id) || 0` defaults to `0`). -/
def rrfAddList (k : ℚ) (acc : String → ℚ) : List String → ℕ → (String → ℚ)
  | [], _ => acc
  | d :: rest, rank =>
      rrfAddList k (fun x => if x = d then acc d + 1 / (k + rank + 1) else acc x)
        rest (rank + 1)

/-- Function `reciprocalRankFusion` (src/lib/embeddings.ts lines 142-158).  The fused
score map is modelled as a total function defaulting to `0`.  The source's
default argument is `k = 60`; callers pass nothing, so they get `60`. -/
def reciprocalRankFusion (rankedLists : List (List String)) (k : ℚ) :
    String → ℚ :=
  rankedLists.foldl (fun acc l => rrfAddList k acc l 0) (fun _ => 0)

/-- The claim-side RRF formula for a single list: the sum over the zero-based
positions of `d` in `l` of `1 / (k + rank + 1)`. -/
def rrfContribution (k : ℚ) (l : List String) (d : String) : ℚ :=
  ((l.enum.filter (fun p => p.2 == d)).map (fun p => 1 / (k + (p.1 : ℚ) + 1))).sum

/- ===================================================================
   src/mcp-server.ts : hybridSearch (lines 64-182)
   =================================================================== -/

/-- Source tag of a hybrid result: `'fts' | 'vec' | 'both'`. -/
inductive HybridSource where
  | fts
  | vec
  | both
deriving DecidableEq

/-- One row of the FTS5 keyword search result (`search` in src/lib/memory.ts),
as consumed by `hybridSearch`: `{table, id, content, rank}`. -/
structure FtsRow where
  table : String
  id : ℕ
  content : String
  rank : ℚ
deriving DecidableEq

/-- One row of the semantic scan as consumed by the fusion step of
`hybridSearch`: `{source_table, source_id, similarity}` (similarity finite in
this section; the `JsNum`-valued pipeline is modelled separately below). -/
structure SemRow where
  source_table : String
  source_id : ℕ
  similarity : ℚ
deriving DecidableEq

/-- One fused hybrid result row. -/
structure OutRow where
  table : String
  id : ℕ
  content : String
  score : ℚ
  source : HybridSource
deriving DecidableEq

/-- The key normalization `r.table === 'loa' ? 'loa_entries' : r.table`. -/
def canonicalTable (t : String) : String :=
  if t = "loa" then "loa_entries" else t

/-- The display normalization `source_table === 'loa_entries' ? 'loa' : ...`. -/
def displayTable (t : String) : String :=
  if t = "loa_entries" then "loa" else t

/-- Dedup identity of an FTS row: `"{kind}:{id}"`. -/
def ftsKey (r : FtsRow) : String :=
  canonicalTable r.table ++ ":" ++ toString r.id

/-- Dedup identity of a semantic row: `"{kind}:{id}"`. -/
def semKey (r : SemRow) : String :=
  r.source_table ++ ":" ++ toString r.source_id

/-- Dedup identity recomputed from a result row (the stored `table` field is
the display name, so it is re-canonicalized). -/
def outKey (r : OutRow) : String :=
  canonicalTable r.table ++ ":" ++ toString r.id

/-- JS `Map.prototype.set`: replace in place if the key exists (insertion
order preserved), otherwise append. -/
def mapSet (m : List (String × OutRow)) (key : String) (v : OutRow) :
    List (String × OutRow) :=
  if m.any (fun p => p.1 == key) then
    m.map (fun p => if p.1 == key then (p.1, v) else p)
  else m ++ [(key, v)]

/-- JS `Map.prototype.get`. -/
def mapGet (m : List (String × OutRow)) (key : String) : Option OutRow :=
  (m.find? (fun p => p.1 == key)).map (fun p => p.2)

/-- The mutation `existing.source = 'both'` on the map entry at `key`. -/
def markBoth (m : List (String × OutRow)) (key : String) :
    List (String × OutRow) :=
  m.map (fun p =>
    if p.1 == key then (p.1, { p.2 with source := HybridSource.both }) else p)

/-- First pass of the fusion in `hybridSearch` (mcp-server.ts lines 121-133):
every FTS row is entered into the result map with its fused score, tagged
`'fts'`. -/
def buildFtsMap (fused : String → ℚ) (ftsResults : List FtsRow) :
    List (String × OutRow) :=
  ftsResults.foldl
    (fun m r =>
      mapSet m (ftsKey r) ⟨r.table, r.id, r.content, fused (ftsKey r), HybridSource.fts⟩)
    []

/-- Second pass (mcp-server.ts lines 135-162): rows already present are
re-tagged `'both'`; new rows are appended tagged `'vec'`, with their preview
content fetched from the base table (`fetch` abstracts the three per-table
lookups, whose default for unknown tables is the empty string). -/
def addSemanticRows (fused : String → ℚ) (fetch : String → ℕ → String)
    (m0 : List (String × OutRow)) (semanticResults : List SemRow) :
    List (String × OutRow) :=
  semanticResults.foldl
    (fun m r =>
      match mapGet m (semKey r) with
      | some _ => markBoth m (semKey r)
      | none =>
          m ++ [(semKey r,
            ⟨displayTable r.source_table, r.source_id,
             fetch r.source_table r.source_id, fused (semKey r), HybridSource.vec⟩)])
    m0

/-- Comparator `(a, b) => b.score - a.score` (descending by fused score). -/
def scoreDescBool (a b : OutRow) : Bool :=
  decide (b.score ≤ a.score)

/-- The fusion branch of `hybridSearch` (mcp-server.ts lines 107-168): RRF
over the pair of ranked identity lists with `k = 60`, merge into the result
map, sort descending by fused score, truncate to `limit`. -/
def hybridFuse (ftsResults : List FtsRow) (semanticResults : List SemRow)
    (fetch : String → ℕ → String) (limit : ℕ) : List OutRow :=
  let fused := reciprocalRankFusion
    [ftsResults.map ftsKey, semanticResults.map semKey] 60
  let m := addSemanticRows fused fetch (buildFtsMap fused ftsResults) semanticResults
  (jsSort scoreDescBool (m.map (fun p => p.2))).take limit

/-- The FTS-only fallback row: `{table, id, content, score: r.rank || 0,
source: 'fts'}` (for rational `rank`, `rank || 0` is `rank`). -/
def tagFts (r : FtsRow) : OutRow :=
  ⟨r.table, r.id, r.content, r.rank, HybridSource.fts⟩

/-- Comparator `(a, b) => b.similarity - a.similarity` on semantic rows. -/
def simDescBool (a b : SemRow) : Bool :=
  decide (b.similarity ≤ a.similarity)

/-- Function `hybridSearch` (mcp-server.ts lines 64-182).  `ftsResults` is the output
of the FTS5 keyword search (requested with `limit * 2`).  `svc` is the
outcome of the embedding phase (the whole `try` block, lines 78-105):
`none` when `checkEmbeddingService` reports unavailable or any step of the
block throws (the `catch` swallows it), `some rows` when the similarity scan
succeeded.  The scan rows are sorted descending and truncated to `limit * 2`;
when the semantic list is empty the function returns the FTS rows truncated
to `limit`, tagged `'fts'`, with `embeddingsAvailable: false` hard-coded. -/
def hybridSearch (ftsResults : List FtsRow) (svc : Option (List SemRow))
    (fetch : String → ℕ → String) (limit : ℕ) : List OutRow × Bool :=
  let semanticResults : List SemRow :=
    match svc with
    | none => []
    | some rows => (jsSort simDescBool rows).take (limit * 2)
  if semanticResults.isEmpty then
    ((ftsResults.map tagFts).take limit, false)
  else
    (hybridFuse ftsResults semanticResults fetch limit, true)

/- ===================================================================
   src/lib/memory.ts : getLastLoaEntry / getMessagesSinceLastLoa
   =================================================================== -/

/-- A row of `messages` (the columns the claims depend on).  ISO-8601
timestamp strings compare lexicographically, i.e. chronologically; the
`timestamp` column is therefore modelled as a natural number. -/
structure MessageRow where
  id : ℕ
  session_id : String
  timestamp : ℕ
deriving DecidableEq

/-- A row of `loa_entries` (the columns the claims depend on);
`created_at` is modelled like `timestamp` above. -/
structure LoaRow where
  id : ℕ
  created_at : ℕ
  message_range_start : Option ℕ
  message_range_end : Option ℕ
  parent_loa_id : Option ℕ
deriving DecidableEq

/-- A row of `sessions` (only the unique external id matters here). -/
structure SessionRow where
  session_id : String
deriving DecidableEq

/-- The database state touched by the session/LoA claims. -/
structure Db where
  sessions : List SessionRow
  messages : List MessageRow
  loa_entries : List LoaRow
deriving DecidableEq

/-- Function `getLastLoaEntry` (memory.ts lines 349-352):
`SELECT * FROM loa_entries ORDER BY created_at DESC LIMIT 1`.  Modelled as
the first row attaining the maximal `created_at` (ties between equal
`created_at` values are unspecified in SQLite; the claims below only use
inputs with distinct `created_at`). -/
def getLastLoaEntry (loa : List LoaRow) : Option LoaRow :=
  loa.foldl
    (fun acc e =>
      match acc with
      | none => some e
      | some a => if a.created_at < e.created_at then some e else some a)
    none

/-- Comparator for `ORDER BY timestamp` (ascending). -/
def tsLeBool (a b : MessageRow) : Bool :=
  decide (a.timestamp ≤ b.timestamp)

/-- The row set selected by `getMessagesSinceLastLoa` before ordering:
`WHERE id > ?` against the last LoA's `message_range_end` when that value is
truthy (`lastLoa?.message_range_end` — so a `0` or `NULL` range end falls
through to the all-messages branch), otherwise all messages. -/
def sinceLastLoaPool (db : Db) : List MessageRow :=
  match getLastLoaEntry db.loa_entries with
  | some loa =>
      match loa.message_range_end with
      | some re =>
          if re = 0 then db.messages
          else db.messages.filter (fun m => decide (re < m.id))
      | none => db.messages
  | none => db.messages

/-- Return shape of `getMessagesSinceLastLoa`. -/
structure MessagesSince where
  messages : List MessageRow
  startId : Option ℕ
  endId : Option ℕ
deriving DecidableEq

/-- Function `getMessagesSinceLastLoa` (memory.ts lines 364-390).  The SQL is
`SELECT * FROM messages [WHERE id > ?] ORDER BY timestamp [LIMIT ?]`; the
`LIMIT` clause is attached only when `limit` is truthy (so `some 0` behaves
like no limit), and `LIMIT n` keeps the FIRST `n` rows of the
timestamp-ascending ordering. -/
def getMessagesSinceLastLoa (db : Db) (limit : Option ℕ) : MessagesSince :=
  let ordered := jsSort tsLeBool (sinceLastLoaPool db)
  let msgs :=
    match limit with
    | some n => if n = 0 then ordered else ordered.take n
    | none => ordered
  ⟨msgs, msgs.head?.map (fun m => m.id), msgs.getLast?.map (fun m => m.id)⟩

/- ===================================================================
   src/commands/dump.ts : deleteLoaEntriesRecursive / deleteSession
   =================================================================== -/

/-- Query `SELECT id FROM loa_entries WHERE parent_loa_id IN (...)`: the ids of the
children of the given LoA ids (a `NULL` parent matches nothing). -/
def childIds (loa : List LoaRow) (ids : List ℕ) : List ℕ :=
  (loa.filter (fun e =>
    match e.parent_loa_id with
    | some p => ids.contains p
    | none => false)).map (fun e => e.id)

/-- Function `deleteLoaEntriesRecursive` (dump.ts lines 161-178): find the children of
the given set, recursively delete them first, then delete the given set.
The source recursion has no termination guard (it diverges on a cyclic
`parent_loa_id` graph, which the schema's forest shape rules out); the model
takes explicit fuel, and callers pass `loa.length + 1`, enough for every
terminating run. -/
def deleteLoaEntriesRecursive (fuel : ℕ) (loa : List LoaRow) (ids : List ℕ) :
    List LoaRow :=
  match fuel with
  | 0 => loa
  | fuel + 1 =>
      if ids.isEmpty then loa
      else
        let cs := childIds loa ids
        let loa1 := if cs.isEmpty then loa else deleteLoaEntriesRecursive fuel loa cs
        loa1.filter (fun e => !(ids.contains e.id))

/-- The iterated-children sequence starting from `ids`: level `0` is `ids`
itself, level `k + 1` holds the children of level `k`.  (All levels are
computed against the undeleted table, exactly as the source's child queries
all run before any `DELETE` executes on the way out of the recursion.) -/
def childIter (loa : List LoaRow) (ids : List ℕ) : ℕ → List ℕ
  | 0 => ids
  | k + 1 => childIds loa (childIter loa ids k)

/-- Query `SELECT id FROM loa_entries WHERE message_range_start >= ? AND
message_range_end <= ?` — SQL three-valued logic drops rows with a `NULL`
range bound. -/
def affectedLoaIds (loa : List LoaRow) (minId maxId : ℕ) : List ℕ :=
  (loa.filter (fun e =>
    match e.message_range_start, e.message_range_end with
    | some s, some en => decide (minId ≤ s) && decide (en ≤ maxId)
    | _, _ => false)).map (fun e => e.id)

/-- Function `deleteSession` (dump.ts lines 184-219), the body of the single
transaction: count the session's messages, compute their `(MIN(id), MAX(id))`,
recursively delete the LoA entries whose range lies inside it, then delete
the messages and the session row, returning the message count. -/
def deleteSession (db : Db) (sessionId : String) : Db × ℕ :=
  let sessMsgs := db.messages.filter (fun m => m.session_id == sessionId)
  let count := sessMsgs.length
  let loa1 :=
    match (sessMsgs.map (fun m => m.id)).min?, (sessMsgs.map (fun m => m.id)).max? with
    | some minId, some maxId =>
        let affected := affectedLoaIds db.loa_entries minId maxId
        if affected.isEmpty then db.loa_entries
        else deleteLoaEntriesRecursive (db.loa_entries.length + 1) db.loa_entries affected
    | _, _ => db.loa_entries
  ({ sessions := db.sessions.filter (fun s => !(s.session_id == sessionId)),
     messages := db.messages.filter (fun m => !(m.session_id == sessionId)),
     loa_entries := loa1 },
   count)

/- ===================================================================
   src/db/connection.ts : initDb   (with src/db/schema.ts)
   =================================================================== -/

/-- Constant `SCHEMA_VERSION = 2` (src/db/schema.ts line 3). -/
def SCHEMA_VERSION : ℕ := 2

/-- The schema objects created by `initDb`'s five `exec` calls
(`CREATE TABLE | INDEX | VIRTUAL TABLE | TRIGGER ... IF NOT EXISTS`), in
execution order (src/db/schema.ts). -/
def schemaObjects : List String :=
  ["sessions", "messages", "decisions", "learnings", "breadcrumbs",
   "schema_meta", "loa_entries", "telos", "documents",
   "idx_sessions_project", "idx_sessions_started",
   "idx_messages_session", "idx_messages_timestamp", "idx_messages_project",
   "idx_decisions_project", "idx_decisions_category", "idx_decisions_created",
   "idx_decisions_status",
   "idx_learnings_project", "idx_learnings_category", "idx_learnings_created",
   "idx_breadcrumbs_project", "idx_breadcrumbs_importance",
   "idx_breadcrumbs_created",
   "idx_loa_project", "idx_loa_created", "idx_loa_parent",
   "idx_telos_type", "idx_telos_category", "idx_telos_parent",
   "idx_documents_type", "idx_documents_created",
   "messages_fts", "decisions_fts", "learnings_fts", "breadcrumbs_fts",
   "loa_fts", "telos_fts", "documents_fts",
   "messages_ai", "messages_ad", "messages_au",
   "decisions_ai", "decisions_ad", "decisions_au",
   "learnings_ai", "learnings_ad", "learnings_au",
   "breadcrumbs_ai", "breadcrumbs_ad", "breadcrumbs_au",
   "loa_ai", "loa_ad", "loa_au",
   "telos_ai", "telos_ad", "telos_au",
   "documents_ai", "documents_ad", "documents_au",
   "embeddings", "idx_embeddings_source", "idx_embeddings_model"]

/-- Observable state of the store file: the schema objects present and the
`schema_meta` row `('version', v)`. -/
structure DbFile where
  objects : List String
  version : Option ℕ
deriving DecidableEq

/-- The error channel the spec's taxonomy assigns to the initializer.  (The
source never constructs it; the type records what a failing initializer
would return.) -/
inductive StoreError where
  | SchemaTooNew
deriving DecidableEq

/-- The effect of executing `CREATE ... IF NOT EXISTS` statements: each named
object is appended only when absent. -/
def createIfNotExists (objs newObjs : List String) : List String :=
  newObjs.foldl (fun acc t => if t ∈ acc then acc else acc ++ [t]) objs

/-- Function `initDb` (connection.ts lines 58-97).  The input is the store file found
at the path (`none` when the file does not exist yet).  The source runs the
`CREATE ... IF NOT EXISTS` scripts unconditionally and then executes
`INSERT OR REPLACE INTO schema_meta ('version', SCHEMA_VERSION)`; it never
reads the recorded version, so no input makes it return an error.  The `Bool`
is the returned `created` flag. -/
def initDb (s : Option DbFile) : Except StoreError (DbFile × Bool) :=
  let base := s.getD ⟨[], none⟩
  Except.ok
    ({ objects := createIfNotExists base.objects schemaObjects,
       version := some SCHEMA_VERSION },
     s.isNone)

/- ===================================================================
   SessionExtract (src/unnamed/part_001) and the batch scanner
   (src/unnamed/part_000)
   =================================================================== -/

/-- An entry of `.extraction_tracker.json`
(`{size, extractedAt?, failedAt?, retryAfter?}`); the ISO timestamp strings
are modelled as epoch milliseconds. -/
structure ExtractionRecord where
  size : ℕ
  extractedAt : Option ℕ
  failedAt : Option ℕ
  retryAfter : Option ℕ
deriving DecidableEq

/-- The tracker file: a map from transcript path to its record. -/
def Tracker : Type := String → Option ExtractionRecord

/-- Function `markAsExtracted` (part_001 lines 246-255): overwrite the record with
`{size: currentSize, extractedAt: now}`. -/
def markAsExtracted (tracker : Tracker) (convPath : String) (size now : ℕ) :
    Tracker :=
  fun q => if q = convPath then some ⟨size, some now, none, none⟩ else tracker q

/-- Function `markAsFailed` (part_001 lines 260-272): overwrite the record with
`{size: currentSize, failedAt: now, retryAfter: now + 24h}`. -/
def markAsFailed (tracker : Tracker) (convPath : String) (size now : ℕ) :
    Tracker :=
  fun q =>
    if q = convPath then some ⟨size, none, some now, some (now + 86400000)⟩
    else tracker q

/-- The growth test `(currentSize - record.size) / record.size > 0.5`, done
in exact arithmetic: for `record.size > 0` the float comparison agrees with
`2 * (currentSize - record.size) > record.size`; for `record.size = 0` the
JS quotient is `Infinity` (`currentSize > 0`, comparison true) or `NaN`
(`currentSize = 0`, comparison false), which the integer form also yields. -/
def grewOverHalf (recordSize currentSize : ℕ) : Bool :=
  decide ((recordSize : ℤ) < 2 * ((currentSize : ℤ) - (recordSize : ℤ)))

/-- Function `wasAlreadyExtracted` (part_001 lines 211-241), `true` meaning "skip".
The growth test runs FIRST and short-circuits to re-extraction; only then is
a failed-without-success record checked against its retry window
(`retryAfter`, defaulting to `failedAt + 24h`).  The `statSync` failure
branch (returns `true`) is outside the model: `currentSize` is an input. -/
def wasAlreadyExtracted (tracker : Tracker) (convPath : String)
    (currentSize now : ℕ) : Bool :=
  match tracker convPath with
  | none => false
  | some record =>
      if grewOverHalf record.size currentSize then false
      else
        match record.failedAt, record.extractedAt with
        | some failedTime, none =>
            if record.retryAfter.getD (failedTime + 86400000) ≤ now then false
            else true
        | _, _ => true

/-- A character-list membership test with the semantics of
`String.prototype.includes`. -/
def strContains (s pat : String) : Bool :=
  (List.range (s.data.length + 1)).any
    (fun i => ((s.data.drop i).take pat.data.length) == pat.data)

/-- The quality gate of `extractAndAppend` (part_001 line 862), verbatim:
`!extracted.includes('ONE SENTENCE SUMMARY') &&
!extracted.includes('MAIN IDEAS')` — the output is rejected only when BOTH
headings are missing. -/
def qualityGateRejects (extracted : String) : Bool :=
  !(strContains extracted "ONE SENTENCE SUMMARY") &&
    !(strContains extracted "MAIN IDEAS")

/-- Whitespace trimming at both ends, the semantics of
`String.prototype.trim` (structural, over the character list). -/
def jsTrim (s : String) : String :=
  ⟨((s.data.dropWhile Char.isWhitespace).reverse.dropWhile
      Char.isWhitespace).reverse⟩

/-- The output gate shared by all three extractor wrappers
(`extractWithOllama` part_001 line 597, `extractWithClaude` line 697, the
chunked meta-extraction line 793): the raw LLM response is handed on — and
can reach the quality gate — only as `result.trim()` and only when that
trimmed text is longer than 50 characters; otherwise the wrapper returns
`null` and `extracted` stays empty. -/
def acceptExtractorOutput (text : String) : Option String :=
  if 50 < (jsTrim text).length then some (jsTrim text) else none

/-- The tail of `extractAndAppend` (part_001 lines 846-930) given the result
of the extractor attempts: when `extracted` is still empty (every method
failed or was discarded by the 50-character output gate,
`acceptExtractorOutput`), the record is marked failed — 24-hour retry
window — and nothing is written (lines 854-858); a non-empty `extracted` is
submitted to the quality gate: on rejection it is likewise marked failed
with nothing written, on acceptance the archive entry is appended and the
record marked extracted.  The returned `Bool` is "an archive entry was
written". -/
def extractAndAppendAfterLlm (tracker : Tracker) (convPath : String)
    (size now : ℕ) (extracted : String) : Tracker × Bool :=
  if extracted = "" then
    (markAsFailed tracker convPath size now, false)
  else if qualityGateRejects extracted then
    (markAsFailed tracker convPath size now, false)
  else
    (markAsExtracted tracker convPath size now, true)

/-- A transcript file found by the batch scanner's walk
(src/unnamed/part_000): `{path, size, project, mtime}`. -/
structure ConvFile where
  path : String
  size : ℕ
  project : String
  mtime : ℕ
deriving DecidableEq

/-- Constant `MIN_FILE_SIZE = 2000` (part_000 line 30). -/
def MIN_FILE_SIZE : ℕ := 2000

/-- The size tier of the candidate sort: medium files
(`size > 2000 && size < 500000`) first. -/
def sizeTier (s : ℕ) : ℕ :=
  if 2000 < s ∧ s < 500000 then 0 else 1

/-- The candidate comparator (part_000 lines 148-153): ascending tier, then
descending size within a tier. -/
def candLeBool (a b : ConvFile) : Bool :=
  if sizeTier a.size = sizeTier b.size then decide (b.size ≤ a.size)
  else decide (sizeTier a.size < sizeTier b.size)

/-- Function `findCandidates` (part_000 lines 111-154): drop files under
`MIN_FILE_SIZE`; keep files with no record; for a failed-without-success
record keep the file only when the retry window has been reached
(`continue` otherwise, BEFORE any growth check); otherwise keep the file
exactly when it grew by more than 50%; finally sort medium-first,
larger-first within a tier. -/
def findCandidates (conversations : List ConvFile) (tracker : Tracker)
    (now : ℕ) : List ConvFile :=
  let selected := conversations.filter (fun conv =>
    if conv.size < MIN_FILE_SIZE then false
    else
      match tracker conv.path with
      | none => true
      | some record =>
          match record.failedAt, record.extractedAt with
          | some failedTime, none =>
              decide (record.retryAfter.getD (failedTime + 86400000) ≤ now)
          | _, _ => grewOverHalf record.size conv.size)
  jsSort candLeBool selected

/- ===================================================================
   src/commands/embed.ts : runSemanticSearch (similarity loop + sort)
   =================================================================== -/

/-- A row of the `embeddings` table as read by the semantic scan:
`{source_table, source_id, embedding BLOB}` (the blob as a byte list). -/
structure EmbRow where
  source_table : String
  source_id : ℕ
  embedding : List ℕ
deriving DecidableEq

/-- A scored row produced by the semantic scan. -/
structure ScoredRow where
  source_table : String
  source_id : ℕ
  similarity : JsNum
deriving DecidableEq

/-- Comparator `(a, b) => b.similarity - a.similarity` under JS sort semantics: a
comparator value of `NaN` is treated as `0` (ties), so `le` holds both ways
for `NaN` scores. -/
def simDescLe (a b : ScoredRow) : Bool :=
  match jsSub b.similarity a.similarity with
  | JsNum.num q => decide (q ≤ 0)
  | JsNum.inf => false
  | JsNum.neginf => true
  | JsNum.nan => true

/-- The body of the similarity loop of `runSemanticSearch` (embed.ts lines
171-179): decode each stored blob and score it against the query embedding
with `cosineSimilarity`, pushing the scored rows in table order.  Decode and
dimension errors propagate (the loop has no `try`/`catch`). -/
def scoreRows (sqrt : JsNum → JsNum) (queryEmbedding : List JsNum) :
    List EmbRow → Except String (List ScoredRow)
  | [] => Except.ok []
  | r :: rest => do
      let e ← blobToEmbedding r.embedding
      let sim ← cosineSimilarity sqrt queryEmbedding e
      let others ← scoreRows sqrt queryEmbedding rest
      pure (⟨r.source_table, r.source_id, sim⟩ :: others)

/-- The similarity loop and sort of `runSemanticSearch` (embed.ts lines
168-182): score every stored embedding row, then sort descending by
similarity.  Nothing filters a `NaN` similarity. -/
def runSemanticSearchScores (sqrt : JsNum → JsNum)
    (queryEmbedding : List JsNum) (rows : List EmbRow) :
    Except String (List ScoredRow) := do
  let scored ← scoreRows sqrt queryEmbedding rows
  pure (jsSort simDescLe scored)

/- ===================================================================
   Shared lemmas
   =================================================================== -/

theorem stableInsert_perm (le : α → α → Bool) (x : α) :
    ∀ l : List α, (stableInsert le x l).Perm (x :: l) := by
  intro l
  induction l with
  | nil => simp [stableInsert]
  | cons y ys ih =>
      by_cases h : le x y
      · simp [stableInsert, h]
      · simp only [stableInsert, h, if_neg, Bool.false_eq_true, not_false_iff, ite_false]
        exact ((ih.cons y).trans (List.Perm.swap x y ys))

theorem jsSort_perm (le : α → α → Bool) (l : List α) : (jsSort le l).Perm l := by
  induction l with
  | nil => simp [jsSort]
  | cons y ys ih =>
      have h1 : jsSort le (y :: ys) = stableInsert le y (jsSort le ys) := rfl
      rw [h1]
      exact (stableInsert_perm le y (jsSort le ys)).trans (ih.cons y)

theorem pairwise_stableInsert (le : α → α → Bool)
    (htot : ∀ a b, le a b = true ∨ le b a = true)
    (htrans : ∀ a b c, le a b = true → le b c = true → le a c = true)
    (x : α) :
    ∀ l : List α, l.Pairwise (fun a b => le a b = true) →
      (stableInsert le x l).Pairwise (fun a b => le a b = true) := by
  intro l
  induction l with
  | nil => intro _; simp [stableInsert]
  | cons y ys ih =>
      intro hp
      rw [List.pairwise_cons] at hp
      by_cases h : le x y
      · simp only [stableInsert, h, ite_true]
        refine List.Pairwise.cons ?_ (List.Pairwise.cons hp.1 hp.2)
        intro b hb
        rcases List.mem_cons.mp hb with hb1 | hb1
        · subst hb1; exact h
        · exact htrans x y b h (hp.1 b hb1)
      · simp only [stableInsert, h, Bool.false_eq_true, if_neg, not_false_iff, ite_false]
        refine List.Pairwise.cons ?_ (ih hp.2)
        intro b hb
        have hmem : b ∈ x :: ys := (stableInsert_perm le x ys).mem_iff.mp hb
        rcases List.mem_cons.mp hmem with hb1 | hb1
        · rw [hb1]
          rcases htot x y with hxy | hyx
          · exact absurd hxy h
          · exact hyx
        · exact hp.1 b hb1

theorem pairwise_jsSort (le : α → α → Bool)
    (htot : ∀ a b, le a b = true ∨ le b a = true)
    (htrans : ∀ a b c, le a b = true → le b c = true → le a c = true)
    (l : List α) :
    (jsSort le l).Pairwise (fun a b => le a b = true) := by
  induction l with
  | nil => simp [jsSort]
  | cons y ys ih => exact pairwise_stableInsert le htot htrans y _ ih

/- ===================================================================
   Claim theorems
   =================================================================== -/

/-- C9: `embedBatch` is total over its input list and never raises: the
result has exactly the length of the input, in input order, and a text whose
`embed` call failed contributes the placeholder
`{embedding: [], model, dimensions: 0}` instead of an error. -/
theorem embedBatch_total_in_order_with_placeholders
    (f : String → Except String EmbeddingResult) (texts : List String) :
    (embedBatch f texts).length = texts.length ∧
    ∀ i : ℕ, (embedBatch f texts)[i]? =
      (texts[i]?).map (fun t =>
        match f t with
        | Except.ok r => r
        | Except.error _ => ⟨[], EMBEDDING_MODEL, 0⟩) := by
  induction texts with
  | nil => exact ⟨rfl, fun i => by simp [embedBatch]⟩
  | cons t ts ih =>
      refine ⟨by simpa [embedBatch] using ih.1, fun i => ?_⟩
      cases i with
      | zero => simp [embedBatch]
      | succ j => simpa [embedBatch] using ih.2 j

/-- C3: when the embedding phase of `hybridSearch` reports the service
unavailable (or any step of it throws), the function returns exactly the
lexical results truncated to `limit`, every result tagged `'fts'`, and the
caller learns of the degradation only through the accompanying
`embeddingsAvailable = false`; no exception escapes (the model is a total
function of the service outcome). -/
theorem hybridSearch_degrades_to_fts_when_service_unavailable
    (ftsResults : List FtsRow) (fetch : String → ℕ → String) (limit : ℕ) :
    hybridSearch ftsResults none fetch limit
        = ((ftsResults.map tagFts).take limit, false) ∧
    ∀ r ∈ (hybridSearch ftsResults none fetch limit).1,
      r.source = HybridSource.fts := by
  constructor
  · rfl
  · intro r hr
    have hr' : r ∈ (ftsResults.map tagFts).take limit := hr
    have hr2 : r ∈ ftsResults.map tagFts :=
      List.mem_of_mem_take hr'
    rcases List.mem_map.mp hr2 with ⟨x, _, hx⟩
    rw [← hx]
    rfl

/-- C1 (code bug): the quality gate at part_001 line 862 uses `&&` between
the two negated `includes` tests, so it rejects only when BOTH required
headings are missing.  The 87-character output below passes every
extractor's 50-character output gate (`acceptExtractorOutput`, so it does
reach the quality gate), contains `MAIN IDEAS` but lacks
`ONE SENTENCE SUMMARY` — and the gate passes it: the archive entry is
written and the record is marked extracted, where the claim (and the
README) demand a rejection with `failed_at`/`retry_after`. -/
theorem quality_gate_passes_output_missing_required_heading :
    acceptExtractorOutput
        "## MAIN IDEAS\n- rewrote the session importer\n- added retry logic to the embed backfill"
      = some "## MAIN IDEAS\n- rewrote the session importer\n- added retry logic to the embed backfill" ∧
    50 < ("## MAIN IDEAS\n- rewrote the session importer\n- added retry logic to the embed backfill" : String).length ∧
    strContains "## MAIN IDEAS\n- rewrote the session importer\n- added retry logic to the embed backfill"
        "ONE SENTENCE SUMMARY" = false ∧
    strContains "## MAIN IDEAS\n- rewrote the session importer\n- added retry logic to the embed backfill"
        "MAIN IDEAS" = true ∧
    qualityGateRejects
        "## MAIN IDEAS\n- rewrote the session importer\n- added retry logic to the embed backfill" = false ∧
    (extractAndAppendAfterLlm (fun _ => none) "/tmp/conv.jsonl" 4096 1700000000000
        "## MAIN IDEAS\n- rewrote the session importer\n- added retry logic to the embed backfill").2 = true ∧
    ((extractAndAppendAfterLlm (fun _ => none) "/tmp/conv.jsonl" 4096 1700000000000
        "## MAIN IDEAS\n- rewrote the session importer\n- added retry logic to the embed backfill").1
          "/tmp/conv.jsonl")
        = some ⟨4096, some 1700000000000, none, none⟩ := by
  refine ⟨by decide, by decide, by decide, by decide, by decide, by decide, by decide⟩

/-- C8 counterexample: in `wasAlreadyExtracted` the >50%-growth test runs
before the retry-window test, so a transcript whose extraction failed one
hour ago (retry window open for another 23 hours) is nevertheless
re-extracted as soon as the file has grown by more than 50%. -/
theorem wasAlreadyExtracted_regrowth_overrides_retry_window :
    wasAlreadyExtracted
        (fun q => if q = "/tmp/conv.jsonl"
          then some ⟨1000, none, some 0, some 86400000⟩ else none)
        "/tmp/conv.jsonl" 2000 3600000 = false ∧
    (3600000 : ℕ) < 86400000 := by
  refine ⟨by decide, by decide⟩

theorem subset_createIfNotExists (newObjs : List String) :
    ∀ objs : List String, objs ⊆ createIfNotExists objs newObjs := by
  induction newObjs with
  | nil => intro objs; exact fun _ h => h
  | cons t ts ih =>
      intro objs
      show objs ⊆ createIfNotExists (if t ∈ objs then objs else objs ++ [t]) ts
      by_cases h : t ∈ objs
      · simpa [h] using ih objs
      · intro a ha
        have : a ∈ objs ++ [t] := List.mem_append_left _ ha
        simpa [h] using ih (objs ++ [t]) this

theorem mem_new_createIfNotExists (newObjs : List String) :
    ∀ (objs : List String) (t : String), t ∈ newObjs →
      t ∈ createIfNotExists objs newObjs := by
  induction newObjs with
  | nil => intro _ _ h; cases h
  | cons u us ih =>
      intro objs t ht
      show t ∈ createIfNotExists (if u ∈ objs then objs else objs ++ [u]) us
      rcases List.mem_cons.mp ht with h1 | h1
      · subst h1
        by_cases h : t ∈ objs
        · simpa [h] using subset_createIfNotExists us objs h
        · have htm : t ∈ objs ++ [t] := List.mem_append_right _ (by simp)
          simpa [h] using subset_createIfNotExists us (objs ++ [t]) htm
      · by_cases h : u ∈ objs <;> simpa [h] using ih _ t h1

theorem createIfNotExists_eq_self (newObjs : List String) :
    ∀ objs : List String, (∀ t ∈ newObjs, t ∈ objs) →
      createIfNotExists objs newObjs = objs := by
  induction newObjs with
  | nil => intro _ _; rfl
  | cons u us ih =>
      intro objs h
      have hu : u ∈ objs := h u (List.mem_cons_self u us)
      show createIfNotExists (if u ∈ objs then objs else objs ++ [u]) us = objs
      rw [if_pos hu]
      exact ih objs (fun t ht => h t (List.mem_cons_of_mem u ht))

/-- C6 counterexample: run against a store file whose recorded schema
version is `3 > SCHEMA_VERSION = 2`, `initDb` does not fail with any
`SchemaTooNew` error — it succeeds and modifies the database, silently
overwriting the recorded version downward to `2`. -/
theorem initDb_accepts_newer_recorded_version :
    initDb (some ⟨schemaObjects, some 3⟩)
        = Except.ok ((⟨schemaObjects, some 2⟩ : DbFile), false) ∧
    SCHEMA_VERSION < 3 := by
  constructor
  · have h : createIfNotExists schemaObjects schemaObjects = schemaObjects :=
      createIfNotExists_eq_self schemaObjects schemaObjects (fun t ht => ht)
    show Except.ok
        ((⟨createIfNotExists schemaObjects schemaObjects, some SCHEMA_VERSION⟩ : DbFile),
          false) = _
    rw [h]
    rfl
  · decide

set_option maxRecDepth 16000 in
/-- C6 amended: `initDb` never fails on any recorded version (there is no
version check at all, and no `SchemaTooNew` error exists in the source); it
is idempotent — re-running it on the store file it produced is a no-op apart
from re-reporting `created = false` — and it always (re)writes the recorded
version to the current `SCHEMA_VERSION`, even when the recorded version was
higher. -/
theorem initDb_idempotent_and_overwrites_version (s : Option DbFile) :
    (∃ t c, initDb s = Except.ok (t, c)) ∧
    (∀ t c, initDb s = Except.ok (t, c) →
      t.version = some SCHEMA_VERSION ∧
      initDb (some t) = Except.ok (t, false)) := by
  constructor
  · exact ⟨_, _, rfl⟩
  · intro t c h
    simp only [initDb, Except.ok.injEq, Prod.mk.injEq] at h
    obtain ⟨h1, _⟩ := h
    have hO := congrArg DbFile.objects h1
    have hV := congrArg DbFile.version h1
    dsimp only at hO hV
    refine ⟨hV.symm, ?_⟩
    have hobj : createIfNotExists t.objects schemaObjects = t.objects := by
      apply createIfNotExists_eq_self
      intro u hu
      rw [← hO]
      exact mem_new_createIfNotExists schemaObjects _ u hu
    show Except.ok
        ((⟨createIfNotExists t.objects schemaObjects, some SCHEMA_VERSION⟩ : DbFile),
          false) = Except.ok (t, false)
    rw [hobj, hV]

/-- Witness for the C6 amended theorem at a concrete store file (recorded
version `3`, all schema objects present). -/
theorem initDb_idempotent_and_overwrites_version_witness :
    ∃ t c, initDb (some ⟨schemaObjects, some 3⟩) = Except.ok (t, c) ∧
      t.version = some SCHEMA_VERSION ∧
      initDb (some t) = Except.ok (t, false) := by
  obtain ⟨hex, hstep⟩ :=
    initDb_idempotent_and_overwrites_version (some ⟨schemaObjects, some 3⟩)
  obtain ⟨t, c, h⟩ := hex
  exact ⟨t, c, h, (hstep t c h).1, (hstep t c h).2⟩

/-- C5 counterexample: with no LoA entry at all and two messages, the
`LIMIT 1` query returns the OLDEST message, not the most recent one, because
the SQL is `ORDER BY timestamp LIMIT ?` (a head, not a tail). -/
theorem getMessagesSinceLastLoa_limit_takes_head_not_tail :
    (getMessagesSinceLastLoa
        ⟨[⟨"s"⟩], [⟨1, "s", 100⟩, ⟨2, "s", 200⟩], []⟩ (some 1)).messages
      = [⟨1, "s", 100⟩] ∧
    (getMessagesSinceLastLoa
        ⟨[⟨"s"⟩], [⟨1, "s", 100⟩, ⟨2, "s", 200⟩], []⟩ (some 1)).messages
      ≠ [⟨2, "s", 200⟩] ∧
    (100 : ℕ) < 200 := by
  refine ⟨by decide, by decide, by decide⟩

/-- C5 amended: `messages_since_last_loa` consults only the most recent LoA
entry (by `created_at`); when that entry's `range_end` is a truthy value the
pool is the messages with `id > range_end`, otherwise all messages.  The
returned messages are ordered by timestamp, and a (truthy) `limit` keeps the
FIRST `limit` rows of that ordering — the oldest ones, not the tail — with
`start_id`/`end_id` the ids of the first and last returned row. -/
theorem getMessagesSinceLastLoa_spec (db : Db) (limit : Option ℕ) :
    (getMessagesSinceLastLoa db limit).messages.Pairwise
        (fun a b => a.timestamp ≤ b.timestamp) ∧
    (∃ rest, ((getMessagesSinceLastLoa db limit).messages ++ rest).Perm
        (sinceLastLoaPool db) ∧
      ∀ a ∈ (getMessagesSinceLastLoa db limit).messages, ∀ b ∈ rest,
        a.timestamp ≤ b.timestamp) ∧
    (getMessagesSinceLastLoa db limit).messages.length
      = (match limit with
         | some n => if n = 0 then (sinceLastLoaPool db).length
                     else min n (sinceLastLoaPool db).length
         | none => (sinceLastLoaPool db).length) ∧
    (getMessagesSinceLastLoa db limit).startId
      = ((getMessagesSinceLastLoa db limit).messages.head?).map (fun m => m.id) ∧
    (getMessagesSinceLastLoa db limit).endId
      = ((getMessagesSinceLastLoa db limit).messages.getLast?).map (fun m => m.id) := by
  have htot : ∀ a b : MessageRow, tsLeBool a b = true ∨ tsLeBool b a = true := by
    intro a b
    simp only [tsLeBool, decide_eq_true_eq]
    omega
  have htrans : ∀ a b c : MessageRow,
      tsLeBool a b = true → tsLeBool b c = true → tsLeBool a c = true := by
    intro a b c
    simp only [tsLeBool, decide_eq_true_eq]
    omega
  have hpair : (jsSort tsLeBool (sinceLastLoaPool db)).Pairwise
      (fun a b => a.timestamp ≤ b.timestamp) := by
    refine (pairwise_jsSort tsLeBool htot htrans (sinceLastLoaPool db)).imp ?_
    intro a b h
    simpa [tsLeBool] using h
  have hperm := jsSort_perm tsLeBool (sinceLastLoaPool db)
  have hmsgs : (getMessagesSinceLastLoa db limit).messages
      = (match limit with
         | some n => if n = 0 then jsSort tsLeBool (sinceLastLoaPool db)
                     else (jsSort tsLeBool (sinceLastLoaPool db)).take n
         | none => jsSort tsLeBool (sinceLastLoaPool db)) := rfl
  have key : ∀ pre : List MessageRow,
      (∃ post, pre ++ post = jsSort tsLeBool (sinceLastLoaPool db)) →
      pre.Pairwise (fun a b => a.timestamp ≤ b.timestamp) ∧
      (∃ rest, (pre ++ rest).Perm (sinceLastLoaPool db) ∧
        ∀ a ∈ pre, ∀ b ∈ rest, a.timestamp ≤ b.timestamp) := by
    intro pre hpre
    obtain ⟨post, hsplit⟩ := hpre
    rw [← hsplit] at hpair
    rw [List.pairwise_append] at hpair
    refine ⟨hpair.1, post, ?_, hpair.2.2⟩
    rw [hsplit]
    exact hperm
  refine ⟨?_, ?_, ?_, rfl, rfl⟩
  · rw [hmsgs]
    match limit with
    | none => exact (key _ ⟨[], by simp⟩).1
    | some n =>
        by_cases hn : n = 0
        · simpa [hn] using (key _ ⟨[], by simp⟩).1
        · simpa [hn] using
            (key _ ⟨(jsSort tsLeBool (sinceLastLoaPool db)).drop n,
              List.take_append_drop n _⟩).1
  · rw [hmsgs]
    match limit with
    | none => exact (key _ ⟨[], by simp⟩).2
    | some n =>
        by_cases hn : n = 0
        · simpa [hn] using (key _ ⟨[], by simp⟩).2
        · simpa [hn] using
            (key _ ⟨(jsSort tsLeBool (sinceLastLoaPool db)).drop n,
              List.take_append_drop n _⟩).2
  · have hlen : (jsSort tsLeBool (sinceLastLoaPool db)).length
        = (sinceLastLoaPool db).length := hperm.length_eq
    rw [hmsgs]
    match limit with
    | none => simpa using hlen
    | some n =>
        by_cases hn : n = 0
        · simpa [hn] using hlen
        · simp [hn, List.length_take, hlen]

/-- C7 counterexample: an 8-byte blob is not `4 × EMBEDDING_DIMENSIONS`
(`= 4 × 768 = 3072`) bytes long, yet decoding does not fail with any
`CorruptEmbedding` error — `blobToEmbedding` has no dimension parameter at
all and happily returns a 2-element vector. -/
theorem blobToEmbedding_ignores_expected_dimensions :
    blobToEmbedding [0, 0, 0, 0, 0, 0, 0, 0]
        = Except.ok [JsNum.num 0, JsNum.num 0] ∧
    (8 : ℕ) ≠ 4 * EMBEDDING_DIMENSIONS := by
  constructor
  · simp [blobToEmbedding, decodeF32LE]
  · decide

/-- C7 amended: decoding never consults an expected dimension count.  Every
blob whose byte length is a multiple of 4 decodes successfully into
`length / 4` little-endian 32-bit floats (the `i`-th from bytes
`4i .. 4i+3`); a blob whose length is not a multiple of 4 fails — with
Node's `ERR_OUT_OF_RANGE` from `readFloatLE`, not a `CorruptEmbedding`. -/
theorem blobToEmbedding_decodes_by_length (blob : List ℕ) :
    (blob.length % 4 = 0 →
      ∃ v, blobToEmbedding blob = Except.ok v ∧
        v.length = blob.length / 4 ∧
        ∀ i, i < v.length →
          v[i]? = some (decodeF32LE (blob.getD (4 * i) 0) (blob.getD (4 * i + 1) 0)
            (blob.getD (4 * i + 2) 0) (blob.getD (4 * i + 3) 0))) ∧
    (blob.length % 4 ≠ 0 → ∃ e, blobToEmbedding blob = Except.error e) := by
  induction blob using blobToEmbedding.induct with
  | case1 =>
      refine ⟨fun _ => ⟨[], rfl, rfl, ?_⟩, fun h => absurd rfl h⟩
      intro i hi
      simp at hi
  | case2 b0 b1 b2 b3 rest vs hok ih =>
      constructor
      · intro h
        have hmod : rest.length % 4 = 0 := by
          simp only [List.length_cons] at h
          omega
        obtain ⟨vs', hok', hlen, hidx⟩ := ih.1 hmod
        have hvs : vs' = vs := by
          rw [hok] at hok'
          exact (Except.ok.inj hok').symm
        subst hvs
        refine ⟨decodeF32LE b0 b1 b2 b3 :: vs', ?_, ?_, ?_⟩
        · simp [blobToEmbedding, hok]
        · simp only [List.length_cons, hlen]
          omega
        · intro i hi
          cases i with
          | zero => simp [List.getD]
          | succ j =>
              have hj : j < vs'.length := by
                simpa using Nat.lt_of_succ_lt_succ hi
              have hg : ∀ m : ℕ,
                  (b0 :: b1 :: b2 :: b3 :: rest).getD (4 * (j + 1) + m) 0
                    = rest.getD (4 * j + m) 0 := by
                intro m
                have e4 : 4 * (j + 1) + m = (4 * j + m) + 4 := by omega
                rw [e4]
                have e5 : ∀ n : ℕ, n + 4 = n + 1 + 1 + 1 + 1 := by omega
                rw [e5]
                simp [List.getD_cons_succ]
              have hg0 : (b0 :: b1 :: b2 :: b3 :: rest).getD (4 * (j + 1)) 0
                  = rest.getD (4 * j) 0 := by
                simpa using hg 0
              rw [List.getElem?_cons_succ, hidx j hj, hg0, hg 1, hg 2, hg 3]
      · intro h
        have hmod : rest.length % 4 ≠ 0 := by
          simp only [List.length_cons] at h
          omega
        obtain ⟨e, herr⟩ := ih.2 hmod
        exact ⟨e, by simp [blobToEmbedding, herr]⟩
  | case3 b0 b1 b2 b3 rest e herr ih =>
      constructor
      · intro h
        have hmod : rest.length % 4 = 0 := by
          simp only [List.length_cons] at h
          omega
        obtain ⟨vs', hok', _, _⟩ := ih.1 hmod
        rw [herr] at hok'
        cases hok'
      · intro _
        exact ⟨e, by simp [blobToEmbedding, herr]⟩
  | case4 t hne hnc =>
      rcases t with _ | ⟨a, _ | ⟨b, _ | ⟨c, _ | ⟨d, rest⟩⟩⟩⟩
      · exact absurd rfl hne
      · exact ⟨fun h => by simp at h, fun _ => ⟨_, rfl⟩⟩
      · exact ⟨fun h => by simp at h, fun _ => ⟨_, rfl⟩⟩
      · exact ⟨fun h => by simp at h, fun _ => ⟨_, rfl⟩⟩
      · exact absurd rfl (hnc a b c d rest)

/-- Witness for the C7 amended theorem: a 4-byte blob (the bytes of `1.0f`
little-endian) decodes to a single float, and a 1-byte blob errors. -/
theorem blobToEmbedding_decodes_by_length_witness :
    (∃ v, blobToEmbedding [0, 0, 128, 63] = Except.ok v ∧
      v.length = 1 ∧
      ∀ i, i < v.length →
        v[i]? = some (decodeF32LE ([0, 0, 128, 63].getD (4 * i) 0)
          ([0, 0, 128, 63].getD (4 * i + 1) 0)
          ([0, 0, 128, 63].getD (4 * i + 2) 0)
          ([0, 0, 128, 63].getD (4 * i + 3) 0))) ∧
    (∃ e, blobToEmbedding [7] = Except.error e) := by
  constructor
  · exact (blobToEmbedding_decodes_by_length [0, 0, 128, 63]).1 (by decide)
  · exact (blobToEmbedding_decodes_by_length [7]).2 (by decide)

/-- Values that are exactly 0 or `NaN` — those reachable by sums of products
with a zero factor. -/
def IsZeroOrNan (x : JsNum) : Prop :=
  x = JsNum.num 0 ∨ x = JsNum.nan

theorem jsMul_zero_left (y : JsNum) : IsZeroOrNan (jsMul (JsNum.num 0) y) := by
  cases y with
  | nan => exact Or.inr rfl
  | inf => exact Or.inr (by simp [jsMul])
  | neginf => exact Or.inr (by simp [jsMul])
  | num b => exact Or.inl (by simp [jsMul])

theorem jsMul_zero_right (x : JsNum) : IsZeroOrNan (jsMul x (JsNum.num 0)) := by
  cases x with
  | nan => exact Or.inr rfl
  | inf => exact Or.inr (by simp [jsMul])
  | neginf => exact Or.inr (by simp [jsMul])
  | num a => exact Or.inl (by simp [jsMul])

theorem jsAdd_zon {a b : JsNum} (ha : IsZeroOrNan a) (hb : IsZeroOrNan b) :
    IsZeroOrNan (jsAdd a b) := by
  rcases ha with ha | ha <;> rcases hb with hb | hb <;> subst ha <;> subst hb
  · exact Or.inl (by simp [jsAdd])
  · exact Or.inr rfl
  · exact Or.inr rfl
  · exact Or.inr rfl

theorem jsDiv_zon_nan {a d : JsNum} (ha : IsZeroOrNan a) (hd : IsZeroOrNan d) :
    jsDiv a d = JsNum.nan := by
  rcases ha with ha | ha <;> rcases hd with hd | hd <;> subst ha <;> subst hd <;>
    simp [jsDiv]

theorem cosineFold_left_zero :
    ∀ (pairs : List (JsNum × JsNum)) (acc : JsNum × JsNum × JsNum),
      (∀ p ∈ pairs, p.1 = JsNum.num 0) →
      IsZeroOrNan acc.1 → acc.2.1 = JsNum.num 0 →
      IsZeroOrNan (pairs.foldl cosineStep acc).1 ∧
        (pairs.foldl cosineStep acc).2.1 = JsNum.num 0 := by
  intro pairs
  induction pairs with
  | nil => intro acc _ h1 h2; exact ⟨h1, h2⟩
  | cons p ps ih =>
      intro acc hz h1 h2
      have hp : p.1 = JsNum.num 0 := hz p (List.mem_cons_self p ps)
      refine ih (cosineStep acc p) (fun q hq => hz q (List.mem_cons_of_mem p hq)) ?_ ?_
      · exact jsAdd_zon h1 (hp ▸ jsMul_zero_left p.2)
      · show jsAdd acc.2.1 (jsMul p.1 p.1) = JsNum.num 0
        rw [h2, hp]
        simp [jsMul, jsAdd]

theorem cosineFold_right_zero :
    ∀ (pairs : List (JsNum × JsNum)) (acc : JsNum × JsNum × JsNum),
      (∀ p ∈ pairs, p.2 = JsNum.num 0) →
      IsZeroOrNan acc.1 → acc.2.2 = JsNum.num 0 →
      IsZeroOrNan (pairs.foldl cosineStep acc).1 ∧
        (pairs.foldl cosineStep acc).2.2 = JsNum.num 0 := by
  intro pairs
  induction pairs with
  | nil => intro acc _ h1 h2; exact ⟨h1, h2⟩
  | cons p ps ih =>
      intro acc hz h1 h2
      have hp : p.2 = JsNum.num 0 := hz p (List.mem_cons_self p ps)
      refine ih (cosineStep acc p) (fun q hq => hz q (List.mem_cons_of_mem p hq)) ?_ ?_
      · exact jsAdd_zon h1 (hp ▸ jsMul_zero_right p.1)
      · show jsAdd acc.2.2 (jsMul p.2 p.2) = JsNum.num 0
        rw [h2, hp]
        simp [jsMul, jsAdd]

theorem cosineSimilarity_zero_norm_nan (sqrt : JsNum → JsNum)
    (hsqrt : sqrt (JsNum.num 0) = JsNum.num 0) (a b : List JsNum)
    (hlen : a.length = b.length)
    (hz : (∀ x ∈ a, x = JsNum.num 0) ∨ (∀ y ∈ b, y = JsNum.num 0)) :
    cosineSimilarity sqrt a b = Except.ok JsNum.nan := by
  have hne : ¬ a.length ≠ b.length := by exact fun h => h hlen
  rcases hz with hz | hz
  · have hfold := cosineFold_left_zero (a.zip b)
      (JsNum.num 0, JsNum.num 0, JsNum.num 0)
      (fun p hp => hz p.1 (List.of_mem_zip hp).1) (Or.inl rfl) rfl
    have hden : IsZeroOrNan
        (jsMul (sqrt (cosineFold (a.zip b)).2.1) (sqrt (cosineFold (a.zip b)).2.2)) := by
      rw [show (cosineFold (a.zip b)).2.1 = JsNum.num 0 from hfold.2, hsqrt]
      exact jsMul_zero_left _
    simp only [cosineSimilarity, hne, if_neg, not_false_iff, ite_false]
    exact congrArg Except.ok (jsDiv_zon_nan hfold.1 hden)
  · have hfold := cosineFold_right_zero (a.zip b)
      (JsNum.num 0, JsNum.num 0, JsNum.num 0)
      (fun p hp => hz p.2 (List.of_mem_zip hp).2) (Or.inl rfl) rfl
    have hden : IsZeroOrNan
        (jsMul (sqrt (cosineFold (a.zip b)).2.1) (sqrt (cosineFold (a.zip b)).2.2)) := by
      rw [show (cosineFold (a.zip b)).2.2 = JsNum.num 0 from hfold.2, hsqrt]
      exact jsMul_zero_right _
    simp only [cosineSimilarity, hne, if_neg, not_false_iff, ite_false]
    exact congrArg Except.ok (jsDiv_zon_nan hfold.1 hden)

/-- C10: `cosineSimilarity` guards only the dimension-mismatch case — it
succeeds exactly when the lengths agree; when either input has zero L2 norm
(all components zero) the unguarded division `dot / (√normA · √normB)`
returns `NaN`; and the semantic-search scan pushes such a `NaN` similarity
into the ranked result list unfiltered (every score of the scan is `NaN`
when the query embedding is the zero vector). -/
theorem cosineSimilarity_unguarded_nan_flows_to_ranking (sqrt : JsNum → JsNum) :
    (∀ a b : List JsNum,
      (∃ v, cosineSimilarity sqrt a b = Except.ok v) ↔ a.length = b.length) ∧
    (sqrt (JsNum.num 0) = JsNum.num 0 →
      ∀ a b : List JsNum, a.length = b.length →
        ((∀ x ∈ a, x = JsNum.num 0) ∨ (∀ y ∈ b, y = JsNum.num 0)) →
        cosineSimilarity sqrt a b = Except.ok JsNum.nan) ∧
    (sqrt (JsNum.num 0) = JsNum.num 0 →
      ∀ (q : List JsNum) (rows : List EmbRow),
        (∀ x ∈ q, x = JsNum.num 0) →
        (∀ r ∈ rows, ∃ v, blobToEmbedding r.embedding = Except.ok v ∧
          v.length = q.length) →
        ∃ out, runSemanticSearchScores sqrt q rows = Except.ok out ∧
          out.length = rows.length ∧
          ∀ e ∈ out, e.similarity = JsNum.nan) := by
  refine ⟨?_, ?_, ?_⟩
  · intro a b
    constructor
    · rintro ⟨v, hv⟩
      by_contra hne
      simp [cosineSimilarity, hne] at hv
    · intro hlen
      exact ⟨jsDiv (cosineFold (a.zip b)).1
          (jsMul (sqrt (cosineFold (a.zip b)).2.1) (sqrt (cosineFold (a.zip b)).2.2)),
        by simp [cosineSimilarity, hlen]⟩
  · intro hs a b hlen hz
    exact cosineSimilarity_zero_norm_nan sqrt hs a b hlen hz
  · intro hs q rows hq hrows
    have hmap : ∀ rs : List EmbRow,
        (∀ r ∈ rs, ∃ v, blobToEmbedding r.embedding = Except.ok v ∧
          v.length = q.length) →
        scoreRows sqrt q rs
        = Except.ok (rs.map (fun r =>
            (⟨r.source_table, r.source_id, JsNum.nan⟩ : ScoredRow))) := by
      intro rs
      induction rs with
      | nil => intro _; rfl
      | cons r rest ih =>
          intro hr
          obtain ⟨v, hok, hlen⟩ := hr r (List.mem_cons_self r rest)
          have hcos : cosineSimilarity sqrt q v = Except.ok JsNum.nan :=
            cosineSimilarity_zero_norm_nan sqrt hs q v hlen.symm (Or.inl hq)
          have ihr := ih (fun x hx => hr x (List.mem_cons_of_mem r hx))
          simp [scoreRows, hok, hcos, ihr, Bind.bind, Except.bind, Pure.pure,
            Except.pure]
    have hrun : runSemanticSearchScores sqrt q rows
        = Except.ok (jsSort simDescLe (rows.map (fun r =>
            (⟨r.source_table, r.source_id, JsNum.nan⟩ : ScoredRow)))) := by
      simp [runSemanticSearchScores, hmap rows hrows]
    refine ⟨_, hrun, ?_, ?_⟩
    · have := (jsSort_perm simDescLe (rows.map (fun r =>
        (⟨r.source_table, r.source_id, JsNum.nan⟩ : ScoredRow)))).length_eq
      simpa using this
    · intro e he
      have he2 : e ∈ rows.map (fun r =>
          (⟨r.source_table, r.source_id, JsNum.nan⟩ : ScoredRow)) :=
        (jsSort_perm simDescLe _).mem_iff.mp he
      rcases List.mem_map.mp he2 with ⟨r, _, hr⟩
      rw [← hr]

/-- Witness for C10 at a concrete `sqrt` oracle, a zero query vector, and a
single stored embedding row whose 4-byte blob decodes to the zero vector. -/
theorem cosineSimilarity_unguarded_nan_flows_to_ranking_witness :
    (∃ v, cosineSimilarity (fun _ => JsNum.num 0) [JsNum.num 0] [JsNum.num 0]
        = Except.ok v) ∧
    cosineSimilarity (fun _ => JsNum.num 0) [JsNum.num 0] [JsNum.num 0]
        = Except.ok JsNum.nan ∧
    (∃ out, runSemanticSearchScores (fun _ => JsNum.num 0) [JsNum.num 0]
          [⟨"loa_entries", 1, [0, 0, 0, 0]⟩] = Except.ok out ∧
      out.length = 1 ∧ ∀ e ∈ out, e.similarity = JsNum.nan) := by
  have h := cosineSimilarity_unguarded_nan_flows_to_ranking (fun _ => JsNum.num 0)
  refine ⟨(h.1 _ _).mpr rfl, h.2.1 rfl _ _ rfl (Or.inl (by simp)), ?_⟩
  exact h.2.2 rfl [JsNum.num 0] [⟨"loa_entries", 1, [0, 0, 0, 0]⟩] (by simp)
    (by
      intro r hr
      simp only [List.mem_singleton] at hr
      subst hr
      exact ⟨[JsNum.num 0], by simp [blobToEmbedding, decodeF32LE], rfl⟩)

theorem rrfAddList_apply (k : ℚ) :
    ∀ (l : List String) (acc : String → ℚ) (rank : ℕ) (d : String),
      rrfAddList k acc l rank d
        = acc d + (((l.enumFrom rank).filter (fun p => p.2 == d)).map
            (fun p => 1 / (k + (p.1 : ℚ) + 1))).sum := by
  intro l
  induction l with
  | nil => intro acc rank d; simp [rrfAddList]
  | cons d0 rest ih =>
      intro acc rank d
      show rrfAddList k
          (fun x => if x = d0 then acc d0 + 1 / (k + rank + 1) else acc x)
          rest (rank + 1) d = _
      rw [ih]
      by_cases hd : d = d0
      · subst hd
        have hbeq : (d == d) = true := by simp
        simp only [List.enumFrom_cons, List.filter_cons, hbeq, if_pos rfl,
          ite_true, List.map_cons, List.sum_cons]
        ring
      · have hbeq : (d0 == d) = false := by
          simp only [beq_eq_false_iff_ne, ne_eq]
          exact fun h => hd h.symm
        simp only [List.enumFrom_cons, List.filter_cons, hbeq, if_neg hd]
        simp

theorem reciprocalRankFusion_pair (k : ℚ) (l1 l2 : List String) (d : String) :
    reciprocalRankFusion [l1, l2] k d
      = rrfContribution k l1 d + rrfContribution k l2 d := by
  show rrfAddList k (rrfAddList k (fun _ => 0) l1 0) l2 0 d = _
  rw [rrfAddList_apply, rrfAddList_apply]
  simp only [rrfContribution, List.enum]
  ring

theorem enumFrom_filter_eq_nil {d : String} :
    ∀ (l : List String) (r : ℕ), d ∉ l →
      (l.enumFrom r).filter (fun p => p.2 == d) = [] := by
  intro l
  induction l with
  | nil => intro r _; rfl
  | cons d0 rest ih =>
      intro r hd
      have h0 : ¬d0 = d := fun h => hd (h ▸ List.mem_cons_self d0 rest)
      have hbeq : (d0 == d) = false := by
        simp only [beq_eq_false_iff_ne, ne_eq]
        exact h0
      simp only [List.enumFrom_cons, List.filter_cons, hbeq]
      exact ih (r + 1) (fun h => hd (List.mem_cons_of_mem d0 h))

theorem rrfContribution_nodup_aux (k : ℚ) (d : String) :
    ∀ (l : List String) (r : ℕ), l.Nodup →
      (((l.enumFrom r).filter (fun p => p.2 == d)).map
          (fun p => 1 / (k + (p.1 : ℚ) + 1))).sum
        = if d ∈ l then 1 / (k + ((l.indexOf d + r : ℕ) : ℚ) + 1) else 0 := by
  intro l
  induction l with
  | nil => intro r _; simp
  | cons d0 rest ih =>
      intro r hnd
      rw [List.nodup_cons] at hnd
      by_cases hd : d = d0
      · subst hd
        have hbeq : (d == d) = true := by simp
        have hnil := enumFrom_filter_eq_nil rest (r + 1) hnd.1
        simp only [List.enumFrom_cons, List.filter_cons, hbeq, ite_true,
          List.map_cons, List.sum_cons, hnil, List.map_nil, List.sum_nil,
          List.indexOf_cons_self, List.mem_cons, true_or, if_pos]
        simp
      · have hbeq : (d0 == d) = false := by
          simp only [beq_eq_false_iff_ne, ne_eq]
          exact fun h => hd h.symm
        have hne : d0 ≠ d := fun h => hd h.symm
        simp only [List.enumFrom_cons, List.filter_cons, hbeq,
          Bool.false_eq_true, if_false]
        rw [ih (r + 1) hnd.2]
        by_cases hmem : d ∈ rest
        · have : d ∈ d0 :: rest := List.mem_cons_of_mem d0 hmem
          rw [if_pos hmem, if_pos this, List.indexOf_cons_ne rest hne]
          congr 2
          push_cast
          ring
        · have : d ∉ d0 :: rest := by
            intro h
            rcases List.mem_cons.mp h with h | h
            · exact hd h
            · exact hmem h
          rw [if_neg hmem, if_neg this]

theorem rrfContribution_nodup (k : ℚ) (l : List String) (d : String)
    (hnd : l.Nodup) :
    rrfContribution k l d
      = if d ∈ l then 1 / (k + ((l.indexOf d : ℕ) : ℚ) + 1) else 0 := by
  have := rrfContribution_nodup_aux k d l 0 hnd
  simpa [rrfContribution, List.enum] using this

/-- Invariant of the hybrid result map: keys are distinct, each value's score
is the fused score of its key, and each value's recomputed identity is its
key. -/
def GoodMap (fused : String → ℚ) (m : List (String × OutRow)) : Prop :=
  (m.map (fun p => p.1)).Nodup ∧
  ∀ p ∈ m, p.2.score = fused p.1 ∧ outKey p.2 = p.1

theorem goodMap_mapSet {fused : String → ℚ} {m : List (String × OutRow)}
    {key : String} {v : OutRow} (h : GoodMap fused m)
    (hv : v.score = fused key ∧ outKey v = key) :
    GoodMap fused (mapSet m key v) := by
  by_cases hany : m.any (fun p => p.1 == key)
  · have hkeys : (m.map (fun p =>
        (if p.1 == key then (p.1, v) else p))).map (fun p => p.1)
        = m.map (fun p => p.1) := by
      rw [List.map_map]
      apply List.map_congr_left
      intro p _
      by_cases hp : p.1 = key <;> simp [hp]
    constructor
    · simp only [mapSet, hany, ite_true]
      rw [hkeys]
      exact h.1
    · intro p hp
      simp only [mapSet, hany, ite_true] at hp
      rcases List.mem_map.mp hp with ⟨q, hq, hqe⟩
      by_cases hqk : q.1 = key
      · have hb : (q.1 == key) = true := by simp [hqk]
        rw [← hqe]
        simp only [hb, ite_true]
        rw [hqk]
        exact hv
      · have hb : (q.1 == key) = false := by simp [hqk]
        rw [← hqe]
        simp only [hb, Bool.false_eq_true, if_false]
        exact h.2 q hq
  · have hnotin : key ∉ m.map (fun p => p.1) := by
      intro hk
      rcases List.mem_map.mp hk with ⟨q, hq, hqe⟩
      apply hany
      rw [List.any_eq_true]
      exact ⟨q, hq, by simp [hqe]⟩
    constructor
    · simp only [mapSet, hany, Bool.false_eq_true, if_false, List.map_append]
      rw [List.nodup_append]
      refine ⟨h.1, by simp, ?_⟩
      intro a ha hb
      simp only [List.map_cons, List.map_nil, List.mem_singleton] at hb
      subst hb
      exact hnotin ha
    · intro p hp
      simp only [mapSet, hany, Bool.false_eq_true, if_false] at hp
      rcases List.mem_append.mp hp with hp1 | hp1
      · exact h.2 p hp1
      · simp only [List.mem_singleton] at hp1
        subst hp1
        exact hv

theorem outKey_source_update (r : OutRow) (s : HybridSource) :
    outKey { r with source := s } = outKey r := rfl

theorem goodMap_markBoth {fused : String → ℚ} {m : List (String × OutRow)}
    (key : String) (h : GoodMap fused m) : GoodMap fused (markBoth m key) := by
  constructor
  · have hkeys : (markBoth m key).map (fun p => p.1) = m.map (fun p => p.1) := by
      simp only [markBoth, List.map_map]
      apply List.map_congr_left
      intro p _
      by_cases hp : p.1 = key <;> simp [hp]
    rw [hkeys]
    exact h.1
  · intro p hp
    simp only [markBoth] at hp
    rcases List.mem_map.mp hp with ⟨q, hq, hqe⟩
    by_cases hqk : q.1 = key
    · have hb : (q.1 == key) = true := by simp [hqk]
      rw [← hqe]
      simp only [hb, ite_true]
      refine ⟨(h.2 q hq).1, ?_⟩
      rw [outKey_source_update]
      exact (h.2 q hq).2
    · have hb : (q.1 == key) = false := by simp [hqk]
      rw [← hqe]
      simp only [hb, Bool.false_eq_true, if_false]
      exact h.2 q hq

theorem goodMap_buildFtsMap (fused : String → ℚ) (ftsResults : List FtsRow) :
    GoodMap fused (buildFtsMap fused ftsResults) := by
  suffices h : ∀ (l : List FtsRow) (m : List (String × OutRow)),
      GoodMap fused m →
      GoodMap fused (l.foldl (fun m r =>
        mapSet m (ftsKey r)
          ⟨r.table, r.id, r.content, fused (ftsKey r), HybridSource.fts⟩) m) by
    exact h ftsResults [] ⟨List.nodup_nil, fun p hp => absurd hp (List.not_mem_nil p)⟩
  intro l
  induction l with
  | nil => intro m hm; exact hm
  | cons r rest ih =>
      intro m hm
      exact ih _ (goodMap_mapSet hm ⟨rfl, rfl⟩)

theorem canonicalTable_displayTable (t : String) (ht : t ≠ "loa") :
    canonicalTable (displayTable t) = t := by
  by_cases h : t = "loa_entries"
  · subst h; rfl
  · simp only [displayTable, h, if_neg, Bool.false_eq_true, not_false_iff,
      ite_false, canonicalTable, ht, if_false]

theorem goodMap_addSemanticRows (fused : String → ℚ)
    (fetch : String → ℕ → String) :
    ∀ (l : List SemRow) (m0 : List (String × OutRow)),
      (∀ r ∈ l, r.source_table ≠ "loa") → GoodMap fused m0 →
      GoodMap fused (addSemanticRows fused fetch m0 l) := by
  intro l
  induction l with
  | nil => intro m0 _ h; exact h
  | cons r rest ih =>
      intro m0 hsem h
      have hr : r.source_table ≠ "loa" := hsem r (List.mem_cons_self r rest)
      have hrest : ∀ x ∈ rest, x.source_table ≠ "loa" :=
        fun x hx => hsem x (List.mem_cons_of_mem r hx)
      have hstep : GoodMap fused
          (match mapGet m0 (semKey r) with
            | some _ => markBoth m0 (semKey r)
            | none =>
                m0 ++ [(semKey r,
                  ⟨displayTable r.source_table, r.source_id,
                   fetch r.source_table r.source_id, fused (semKey r),
                   HybridSource.vec⟩)]) := by
        cases hget : mapGet m0 (semKey r) with
        | some v => exact goodMap_markBoth (semKey r) h
        | none =>
            have hnone : ∀ p ∈ m0, ¬(p.1 = semKey r) := by
              intro p hp he
              have : m0.find? (fun q => q.1 == semKey r) = none := by
                simpa [mapGet, Option.map_eq_none'] using hget
              have := List.find?_eq_none.mp this p hp
              simp [he] at this
            constructor
            · rw [List.map_append, List.nodup_append]
              refine ⟨h.1, by simp, ?_⟩
              intro a ha hb
              simp only [List.map_cons, List.map_nil, List.mem_singleton] at hb
              subst hb
              rcases List.mem_map.mp ha with ⟨q, hq, hqe⟩
              exact hnone q hq hqe
            · intro p hp
              rcases List.mem_append.mp hp with hp1 | hp1
              · exact h.2 p hp1
              · simp only [List.mem_singleton] at hp1
                subst hp1
                refine ⟨rfl, ?_⟩
                show canonicalTable (displayTable r.source_table) ++ ":"
                    ++ toString r.source_id = semKey r
                rw [canonicalTable_displayTable r.source_table hr]
                rfl
      exact ih _ hrest hstep

/-- C4: the hybrid fusion assigns each distinct identity `"{kind}:{id}"` the
score `RRF(d) = Σ_list 1/(k + rank(d) + 1)` with `k = 60` and zero-based
ranks (an item in both lists gets the sum of both contributions, an item in
one list gets that list's contribution plus `0`), and the fused results come
back deduplicated by identity, in descending fused-score order, truncated to
the requested `limit`, each carrying its fused score. -/
theorem hybrid_rrf_fusion_spec (ftsResults : List FtsRow)
    (semanticResults : List SemRow) (fetch : String → ℕ → String) (limit : ℕ)
    (hF : (ftsResults.map ftsKey).Nodup)
    (hS : (semanticResults.map semKey).Nodup)
    (hsem : ∀ r ∈ semanticResults, r.source_table ≠ "loa") :
    (∀ d, reciprocalRankFusion
        [ftsResults.map ftsKey, semanticResults.map semKey] 60 d
      = (if d ∈ ftsResults.map ftsKey
         then 1 / (60 + (((ftsResults.map ftsKey).indexOf d : ℕ) : ℚ) + 1)
         else 0)
        + (if d ∈ semanticResults.map semKey
           then 1 / (60 + (((semanticResults.map semKey).indexOf d : ℕ) : ℚ) + 1)
           else 0)) ∧
    (hybridFuse ftsResults semanticResults fetch limit).Pairwise
        (fun a b => b.score ≤ a.score) ∧
    (hybridFuse ftsResults semanticResults fetch limit).length ≤ limit ∧
    (∀ r ∈ hybridFuse ftsResults semanticResults fetch limit,
      r.score = reciprocalRankFusion
        [ftsResults.map ftsKey, semanticResults.map semKey] 60 (outKey r)) ∧
    ((hybridFuse ftsResults semanticResults fetch limit).map outKey).Nodup := by
  have hgood : GoodMap
      (reciprocalRankFusion [ftsResults.map ftsKey, semanticResults.map semKey] 60)
      (addSemanticRows
        (reciprocalRankFusion [ftsResults.map ftsKey, semanticResults.map semKey] 60)
        fetch
        (buildFtsMap
          (reciprocalRankFusion [ftsResults.map ftsKey, semanticResults.map semKey] 60)
          ftsResults)
        semanticResults) :=
    goodMap_addSemanticRows _ fetch semanticResults _ hsem
      (goodMap_buildFtsMap _ ftsResults)
  have hout : hybridFuse ftsResults semanticResults fetch limit
      = (jsSort scoreDescBool
          ((addSemanticRows
            (reciprocalRankFusion [ftsResults.map ftsKey, semanticResults.map semKey] 60)
            fetch
            (buildFtsMap
              (reciprocalRankFusion [ftsResults.map ftsKey, semanticResults.map semKey] 60)
              ftsResults)
            semanticResults).map (fun p => p.2))).take limit := rfl
  have htot : ∀ a b : OutRow, scoreDescBool a b = true ∨ scoreDescBool b a = true := by
    intro a b
    simp only [scoreDescBool, decide_eq_true_eq]
    rcases le_total a.score b.score with h | h
    · exact Or.inr h
    · exact Or.inl h
  have htrans : ∀ a b c : OutRow, scoreDescBool a b = true →
      scoreDescBool b c = true → scoreDescBool a c = true := by
    intro a b c
    simp only [scoreDescBool, decide_eq_true_eq]
    intro h1 h2
    exact le_trans h2 h1
  refine ⟨?_, ?_, ?_, ?_, ?_⟩
  · intro d
    rw [reciprocalRankFusion_pair, rrfContribution_nodup 60 _ d hF,
      rrfContribution_nodup 60 _ d hS]
  · rw [hout]
    refine List.Pairwise.sublist (List.take_sublist _ _) ?_
    refine (pairwise_jsSort scoreDescBool htot htrans _).imp ?_
    intro a b h
    simpa [scoreDescBool] using h
  · rw [hout]
    exact List.length_take_le _ _
  · intro r hr
    rw [hout] at hr
    have hr2 := List.mem_of_mem_take hr
    have hr3 := (jsSort_perm scoreDescBool _).mem_iff.mp hr2
    rcases List.mem_map.mp hr3 with ⟨p, hp, hpe⟩
    have hinv := hgood.2 p hp
    rw [← hpe, hinv.2]
    exact hinv.1
  · rw [hout]
    have hmapkeys : ((addSemanticRows
        (reciprocalRankFusion [ftsResults.map ftsKey, semanticResults.map semKey] 60)
        fetch
        (buildFtsMap
          (reciprocalRankFusion [ftsResults.map ftsKey, semanticResults.map semKey] 60)
          ftsResults)
        semanticResults).map (fun p => p.2)).map outKey
        = (addSemanticRows
            (reciprocalRankFusion [ftsResults.map ftsKey, semanticResults.map semKey] 60)
            fetch
            (buildFtsMap
              (reciprocalRankFusion [ftsResults.map ftsKey, semanticResults.map semKey] 60)
              ftsResults)
            semanticResults).map (fun p => p.1) := by
      rw [List.map_map]
      apply List.map_congr_left
      intro p hp
      exact (hgood.2 p hp).2
    have hnd : ((jsSort scoreDescBool
        ((addSemanticRows
          (reciprocalRankFusion [ftsResults.map ftsKey, semanticResults.map semKey] 60)
          fetch
          (buildFtsMap
            (reciprocalRankFusion [ftsResults.map ftsKey, semanticResults.map semKey] 60)
            ftsResults)
          semanticResults).map (fun p => p.2))).map outKey).Nodup := by
      refine (((jsSort_perm scoreDescBool _).map outKey).nodup_iff).mpr ?_
      rw [hmapkeys]
      exact hgood.1
    exact hnd.sublist (List.Sublist.map outKey (List.take_sublist _ _))

/-- Witness for C4: two FTS rows and two semantic rows sharing one identity
(`loa_entries:1`). -/
theorem hybrid_rrf_fusion_spec_witness :
    (∀ d, reciprocalRankFusion
        [[⟨"loa", 1, "c1", -1⟩, ⟨"messages", 2, "c2", 0⟩].map ftsKey,
         [⟨"loa_entries", 1, (9 : ℚ)/10⟩, ⟨"decisions", 3, (4 : ℚ)/5⟩].map semKey] 60 d
      = (if d ∈ [⟨"loa", 1, "c1", -1⟩, ⟨"messages", 2, "c2", 0⟩].map ftsKey
         then 1 / (60 + ((([⟨"loa", 1, "c1", -1⟩, ⟨"messages", 2, "c2", 0⟩].map
            ftsKey).indexOf d : ℕ) : ℚ) + 1)
         else 0)
        + (if d ∈ [⟨"loa_entries", 1, (9 : ℚ)/10⟩, ⟨"decisions", 3, (4 : ℚ)/5⟩].map semKey
           then 1 / (60 + ((([⟨"loa_entries", 1, (9 : ℚ)/10⟩,
              ⟨"decisions", 3, (4 : ℚ)/5⟩].map semKey).indexOf d : ℕ) : ℚ) + 1)
           else 0)) ∧
    (hybridFuse [⟨"loa", 1, "c1", -1⟩, ⟨"messages", 2, "c2", 0⟩]
        [⟨"loa_entries", 1, (9 : ℚ)/10⟩, ⟨"decisions", 3, (4 : ℚ)/5⟩]
        (fun _ _ => "p") 2).Pairwise (fun a b => b.score ≤ a.score) ∧
    (hybridFuse [⟨"loa", 1, "c1", -1⟩, ⟨"messages", 2, "c2", 0⟩]
        [⟨"loa_entries", 1, (9 : ℚ)/10⟩, ⟨"decisions", 3, (4 : ℚ)/5⟩]
        (fun _ _ => "p") 2).length ≤ 2 ∧
    (∀ r ∈ hybridFuse [⟨"loa", 1, "c1", -1⟩, ⟨"messages", 2, "c2", 0⟩]
        [⟨"loa_entries", 1, (9 : ℚ)/10⟩, ⟨"decisions", 3, (4 : ℚ)/5⟩]
        (fun _ _ => "p") 2,
      r.score = reciprocalRankFusion
        [[⟨"loa", 1, "c1", -1⟩, ⟨"messages", 2, "c2", 0⟩].map ftsKey,
         [⟨"loa_entries", 1, (9 : ℚ)/10⟩, ⟨"decisions", 3, (4 : ℚ)/5⟩].map semKey] 60
        (outKey r)) ∧
    ((hybridFuse [⟨"loa", 1, "c1", -1⟩, ⟨"messages", 2, "c2", 0⟩]
        [⟨"loa_entries", 1, (9 : ℚ)/10⟩, ⟨"decisions", 3, (4 : ℚ)/5⟩]
        (fun _ _ => "p") 2).map outKey).Nodup :=
  hybrid_rrf_fusion_spec
    [⟨"loa", 1, "c1", -1⟩, ⟨"messages", 2, "c2", 0⟩]
    [⟨"loa_entries", 1, (9 : ℚ)/10⟩, ⟨"decisions", 3, (4 : ℚ)/5⟩]
    (fun _ _ => "p") 2
    (by decide) (by decide) (by decide)

/-- C8 amended: full characterization of the two dedup/scheduling gates.
In the extraction pipeline's gate (`wasAlreadyExtracted`): no record →
proceed; the >50%-growth test runs first and forces re-extraction regardless
of the record's state (in particular even during an open retry window);
otherwise a record with `extracted_at` set is skipped; a failed-only record
proceeds exactly when `retry_after` (default `failed_at + 24h`) has been
reached.  In the batch scanner's candidate filter (`findCandidates`), files
under 2000 bytes are dropped and the failed-retry test runs BEFORE the
growth test, so a failed path is not re-selected early however much it has
grown. -/
theorem extraction_dedup_gate_spec (tracker : Tracker) (path : String)
    (csize now : ℕ) (conversations : List ConvFile) :
    (tracker path = none → wasAlreadyExtracted tracker path csize now = false) ∧
    (∀ r, tracker path = some r → grewOverHalf r.size csize = true →
      wasAlreadyExtracted tracker path csize now = false) ∧
    (∀ r t0, tracker path = some r → grewOverHalf r.size csize = false →
      r.extractedAt = some t0 →
      wasAlreadyExtracted tracker path csize now = true) ∧
    (∀ r ft, tracker path = some r → grewOverHalf r.size csize = false →
      r.failedAt = some ft → r.extractedAt = none →
      wasAlreadyExtracted tracker path csize now
        = !(decide (r.retryAfter.getD (ft + 86400000) ≤ now))) ∧
    (∀ conv ∈ conversations,
      conv ∈ findCandidates conversations tracker now ↔
        (MIN_FILE_SIZE ≤ conv.size ∧
          (tracker conv.path = none ∨
           (∃ r ft, tracker conv.path = some r ∧ r.failedAt = some ft ∧
              r.extractedAt = none ∧ r.retryAfter.getD (ft + 86400000) ≤ now) ∨
           (∃ r, tracker conv.path = some r ∧
              ¬(r.failedAt.isSome = true ∧ r.extractedAt = none) ∧
              grewOverHalf r.size conv.size = true)))) := by
  refine ⟨?_, ?_, ?_, ?_, ?_⟩
  · intro h
    simp [wasAlreadyExtracted, h]
  · intro r hr hg
    simp [wasAlreadyExtracted, hr, hg]
  · intro r t0 hr hg he
    cases hf : r.failedAt with
    | none => simp [wasAlreadyExtracted, hr, hg, hf, he]
    | some ft => simp [wasAlreadyExtracted, hr, hg, hf, he]
  · intro r ft hr hg hf he
    by_cases hret : r.retryAfter.getD (ft + 86400000) ≤ now
    · simp [wasAlreadyExtracted, hr, hg, hf, he, hret]
    · simp [wasAlreadyExtracted, hr, hg, hf, he, hret]
  · intro conv hconv
    have hperm : conv ∈ findCandidates conversations tracker now ↔
        conv ∈ conversations.filter (fun conv =>
          if conv.size < MIN_FILE_SIZE then false
          else
            match tracker conv.path with
            | none => true
            | some record =>
                match record.failedAt, record.extractedAt with
                | some failedTime, none =>
                    decide (record.retryAfter.getD (failedTime + 86400000) ≤ now)
                | _, _ => grewOverHalf record.size conv.size) :=
      (jsSort_perm candLeBool _).mem_iff
    rw [hperm, List.mem_filter]
    by_cases hsize : conv.size < MIN_FILE_SIZE
    · simp only [hsize, ite_true]
      constructor
      · rintro ⟨_, h⟩
        cases h
      · rintro ⟨h, _⟩
        omega
    · have hsize' : MIN_FILE_SIZE ≤ conv.size := by omega
      simp only [hsize, ite_false, Bool.false_eq_true]
      cases htr : tracker conv.path with
      | none => simp [hconv, hsize']
      | some r =>
          simp only [hconv, true_and]
          cases hf : r.failedAt with
          | some ft =>
              cases he : r.extractedAt with
              | none =>
                  constructor
                  · intro h
                    refine ⟨hsize', Or.inr (Or.inl ⟨r, ft, rfl, hf, he, ?_⟩)⟩
                    simpa using h
                  · rintro ⟨_, hcase⟩
                    rcases hcase with hcase | hcase | hcase
                    · cases hcase
                    · rcases hcase with ⟨r', ft', hr', hf', _, hret'⟩
                      have : r' = r := (Option.some.inj hr').symm
                      subst this
                      have : ft' = ft := by
                        rw [hf] at hf'
                        exact (Option.some.inj hf').symm
                      subst this
                      simpa using hret'
                    · rcases hcase with ⟨r', hr', hnot, _⟩
                      have : r' = r := (Option.some.inj hr').symm
                      subst this
                      exact absurd ⟨by simp [hf], he⟩ hnot
              | some t0 =>
                  constructor
                  · intro h
                    refine ⟨hsize', Or.inr (Or.inr ⟨r, rfl, ?_, h⟩)⟩
                    rintro ⟨_, hnone⟩
                    rw [he] at hnone
                    cases hnone
                  · rintro ⟨_, hcase⟩
                    rcases hcase with hcase | hcase | hcase
                    · cases hcase
                    · rcases hcase with ⟨r', ft', hr', _, he', _⟩
                      have : r' = r := (Option.some.inj hr').symm
                      subst this
                      rw [he] at he'
                      cases he'
                    · rcases hcase with ⟨r', hr', _, hg'⟩
                      have : r' = r := (Option.some.inj hr').symm
                      subst this
                      exact hg'
          | none =>
              constructor
              · intro h
                refine ⟨hsize', Or.inr (Or.inr ⟨r, rfl, ?_, ?_⟩)⟩
                · rintro ⟨hns, _⟩
                  rw [hf] at hns
                  cases hns
                · cases he : r.extractedAt with
                  | none => simpa [hf, he] using h
                  | some t0 => simpa [hf, he] using h
              · rintro ⟨_, hcase⟩
                rcases hcase with hcase | hcase | hcase
                · cases hcase
                · rcases hcase with ⟨r', ft', hr', hf', _, _⟩
                  have : r' = r := (Option.some.inj hr').symm
                  subst this
                  rw [hf] at hf'
                  cases hf'
                · rcases hcase with ⟨r', hr', _, hg'⟩
                  have hrr : r' = r := (Option.some.inj hr').symm
                  rw [hrr] at hg'
                  cases he : r.extractedAt with
                  | none => simpa [hf, he] using hg'
                  | some t0 => simpa [hf, he] using hg'

/-- Witness for C8 amended at concrete inputs: a failed-and-grown record
proceeds in the pipeline gate, and the batch scanner keeps an unseen 3000-byte
file. -/
theorem extraction_dedup_gate_spec_witness :
    wasAlreadyExtracted
        (fun q => if q = "/tmp/conv.jsonl"
          then some ⟨1000, none, some 0, some 86400000⟩ else none)
        "/tmp/conv.jsonl" 2000 3600000 = false ∧
    ((⟨"/tmp/other.jsonl", 3000, "p", 5⟩ : ConvFile) ∈ findCandidates
        [⟨"/tmp/other.jsonl", 3000, "p", 5⟩]
        (fun q => if q = "/tmp/conv.jsonl"
          then some ⟨1000, none, some 0, some 86400000⟩ else none)
        3600000) := by
  have h := extraction_dedup_gate_spec
    (fun q => if q = "/tmp/conv.jsonl"
      then some ⟨1000, none, some 0, some 86400000⟩ else none)
    "/tmp/conv.jsonl" 2000 3600000 [⟨"/tmp/other.jsonl", 3000, "p", 5⟩]
  refine ⟨h.2.1 ⟨1000, none, some 0, some 86400000⟩ (by decide) (by decide), ?_⟩
  refine (h.2.2.2.2 ⟨"/tmp/other.jsonl", 3000, "p", 5⟩ (by decide)).mpr ?_
  exact ⟨by decide, Or.inl (by decide)⟩

theorem childIds_nil (loa : List LoaRow) : childIds loa [] = [] := by
  simp only [childIds, List.map_eq_nil_iff]
  apply List.filter_eq_nil_iff.mpr
  intro e _
  cases e.parent_loa_id <;> simp

theorem childIter_shift (loa : List LoaRow) (ids : List ℕ) :
    ∀ k, childIter loa ids (k + 1) = childIter loa (childIds loa ids) k := by
  intro k
  induction k with
  | zero => rfl
  | succ n ih =>
      show childIds loa (childIter loa ids (n + 1))
          = childIds loa (childIter loa (childIds loa ids) n)
      rw [ih]

theorem childIter_nil (loa : List LoaRow) : ∀ k, childIter loa [] k = [] := by
  intro k
  induction k with
  | zero => rfl
  | succ n ih =>
      show childIds loa (childIter loa [] n) = []
      rw [ih]
      exact childIds_nil loa

theorem childIter_empty_stable (loa : List LoaRow) (ids : List ℕ) {k : ℕ}
    (h : childIter loa ids k = []) : ∀ j, k ≤ j → childIter loa ids j = [] := by
  have haux : ∀ m, childIter loa ids (k + m) = [] := by
    intro m
    induction m with
    | zero => exact h
    | succ n ih =>
        show childIds loa (childIter loa ids (k + n)) = []
        rw [ih]
        exact childIds_nil loa
  intro j hj
  have : j = k + (j - k) := by omega
  rw [this]
  exact haux (j - k)

theorem mem_deleteLoaEntriesRecursive (loa : List LoaRow) :
    ∀ (fuel : ℕ) (ids : List ℕ) (e : LoaRow),
      e ∈ deleteLoaEntriesRecursive fuel loa ids ↔
        (e ∈ loa ∧ ∀ k < fuel, e.id ∉ childIter loa ids k) := by
  intro fuel
  induction fuel with
  | zero =>
      intro ids e
      simp [deleteLoaEntriesRecursive]
  | succ n ih =>
      intro ids e
      by_cases hids : ids.isEmpty
      · have hids' : ids = [] := by simpa using hids
        subst hids'
        simp [deleteLoaEntriesRecursive, childIter_nil]
      · have hunf : deleteLoaEntriesRecursive (n + 1) loa ids
            = (if (childIds loa ids).isEmpty then loa
               else deleteLoaEntriesRecursive n loa (childIds loa ids)).filter
                (fun e => !(ids.contains e.id)) := by
          simp [deleteLoaEntriesRecursive, hids]
        by_cases hcs : (childIds loa ids).isEmpty
        · have hcs' : childIds loa ids = [] := by simpa using hcs
          rw [hunf, if_pos hcs, List.mem_filter]
          constructor
          · rintro ⟨he, hid⟩
            refine ⟨he, ?_⟩
            intro k hk
            cases k with
            | zero =>
                show e.id ∉ ids
                simpa using hid
            | succ m =>
                rw [childIter_shift, hcs', childIter_nil]
                exact List.not_mem_nil _
          · rintro ⟨he, hall⟩
            have h0 : e.id ∉ ids := hall 0 (by omega)
            exact ⟨he, by simpa using h0⟩
        · rw [hunf, if_neg hcs, List.mem_filter, ih (childIds loa ids) e]
          constructor
          · rintro ⟨⟨he, hall⟩, hid⟩
            refine ⟨he, ?_⟩
            intro k hk
            cases k with
            | zero =>
                show e.id ∉ ids
                simpa using hid
            | succ m =>
                rw [childIter_shift]
                exact hall m (by omega)
          · rintro ⟨he, hall⟩
            refine ⟨⟨he, ?_⟩, ?_⟩
            · intro m hm
              rw [← childIter_shift]
              exact hall (m + 1) (by omega)
            · have h0 : e.id ∉ ids := hall 0 (by omega)
              simpa using h0

/-- C2: `deleteSession` — the body of the single re-ingest transaction —
returns the number of the session's messages; afterwards no message of the
session and no session row with that external id survives (and nothing else
is touched in those tables); every LoA entry whose non-null range lies fully
inside the `(MIN(id), MAX(id))` of the session's messages is deleted; and,
whenever the iterated-children closure of that affected set stabilizes to
empty within `|loa_entries|` levels (always true for the schema's forest
shape), a LoA entry survives exactly when it is in no level of that closure
— i.e. exactly the affected entries and their recursively collected
descendants are deleted.  A session with no messages leaves the LoA table
untouched. -/
theorem deleteSession_cascade_spec (db : Db) (sessionId : String) :
    (deleteSession db sessionId).2
        = (db.messages.filter (fun m => m.session_id == sessionId)).length ∧
    (∀ m ∈ (deleteSession db sessionId).1.messages, m.session_id ≠ sessionId) ∧
    (∀ m ∈ db.messages, m.session_id ≠ sessionId →
      m ∈ (deleteSession db sessionId).1.messages) ∧
    (∀ s ∈ (deleteSession db sessionId).1.sessions, s.session_id ≠ sessionId) ∧
    (∀ s ∈ db.sessions, s.session_id ≠ sessionId →
      s ∈ (deleteSession db sessionId).1.sessions) ∧
    (∀ minId maxId,
      (((db.messages.filter (fun m => m.session_id == sessionId)).map
          (fun m => m.id)).min? = some minId) →
      (((db.messages.filter (fun m => m.session_id == sessionId)).map
          (fun m => m.id)).max? = some maxId) →
      ((∀ e ∈ (deleteSession db sessionId).1.loa_entries, ∀ s en,
          e.message_range_start = some s → e.message_range_end = some en →
          ¬(minId ≤ s ∧ en ≤ maxId)) ∧
       (childIter db.loa_entries (affectedLoaIds db.loa_entries minId maxId)
            db.loa_entries.length = [] →
         ∀ e ∈ db.loa_entries,
           (e ∈ (deleteSession db sessionId).1.loa_entries ↔
             ∀ k, e.id ∉ childIter db.loa_entries
               (affectedLoaIds db.loa_entries minId maxId) k)))) ∧
    ((db.messages.filter (fun m => m.session_id == sessionId)) = [] →
      (deleteSession db sessionId).1.loa_entries = db.loa_entries) := by
  have hmsg : (deleteSession db sessionId).1.messages
      = db.messages.filter (fun m => !(m.session_id == sessionId)) := rfl
  have hses : (deleteSession db sessionId).1.sessions
      = db.sessions.filter (fun s => !(s.session_id == sessionId)) := rfl
  have hloa : (deleteSession db sessionId).1.loa_entries
      = (match ((db.messages.filter (fun m => m.session_id == sessionId)).map
            (fun m => m.id)).min?,
          ((db.messages.filter (fun m => m.session_id == sessionId)).map
            (fun m => m.id)).max? with
         | some minId, some maxId =>
             if (affectedLoaIds db.loa_entries minId maxId).isEmpty then
               db.loa_entries
             else
               deleteLoaEntriesRecursive (db.loa_entries.length + 1)
                 db.loa_entries (affectedLoaIds db.loa_entries minId maxId)
         | _, _ => db.loa_entries) := rfl
  refine ⟨rfl, ?_, ?_, ?_, ?_, ?_, ?_⟩
  · intro m hm
    rw [hmsg] at hm
    have := (List.mem_filter.mp hm).2
    simpa using this
  · intro m hm hne
    rw [hmsg]
    exact List.mem_filter.mpr ⟨hm, by simpa using hne⟩
  · intro s hs
    rw [hses] at hs
    have := (List.mem_filter.mp hs).2
    simpa using this
  · intro s hs hne
    rw [hses]
    exact List.mem_filter.mpr ⟨hs, by simpa using hne⟩
  · intro minId maxId hmin hmax
    have hloa1 : (deleteSession db sessionId).1.loa_entries
        = if (affectedLoaIds db.loa_entries minId maxId).isEmpty then
            db.loa_entries
          else
            deleteLoaEntriesRecursive (db.loa_entries.length + 1)
              db.loa_entries (affectedLoaIds db.loa_entries minId maxId) := by
      rw [hloa, hmin, hmax]
    constructor
    · intro e he s en hs hen hcon
      have haffmem : ∀ hmem : e ∈ db.loa_entries,
          e.id ∈ affectedLoaIds db.loa_entries minId maxId := by
        intro hmem
        apply List.mem_map.mpr
        refine ⟨e, List.mem_filter.mpr ⟨hmem, ?_⟩, rfl⟩
        rw [hs, hen]
        simp only [Bool.and_eq_true, decide_eq_true_eq]
        exact hcon
      by_cases haff : (affectedLoaIds db.loa_entries minId maxId).isEmpty
      · rw [hloa1, if_pos haff] at he
        have := haffmem he
        rw [List.isEmpty_iff.mp haff] at this
        exact List.not_mem_nil _ this
      · rw [hloa1, if_neg haff, mem_deleteLoaEntriesRecursive] at he
        have h0 : e.id ∉ childIter db.loa_entries
            (affectedLoaIds db.loa_entries minId maxId) 0 :=
          he.2 0 (by omega)
        exact h0 (haffmem he.1)
    · intro hterm e he
      by_cases haff : (affectedLoaIds db.loa_entries minId maxId).isEmpty
      · have haff' : affectedLoaIds db.loa_entries minId maxId = [] := by
          simpa using haff
        rw [hloa1, if_pos haff]
        constructor
        · intro _ k
          rw [haff', childIter_nil]
          exact List.not_mem_nil _
        · intro _
          exact he
      · rw [hloa1, if_neg haff, mem_deleteLoaEntriesRecursive]
        constructor
        · rintro ⟨_, hall⟩ k
          by_cases hk : k < db.loa_entries.length + 1
          · exact hall k hk
          · rw [childIter_empty_stable db.loa_entries _ hterm k (by omega)]
            exact List.not_mem_nil _
        · intro hall
          exact ⟨he, fun k _ => hall k⟩
  · intro hempty
    rw [hloa, hempty]
    rfl

/-- Witness for C2 at a concrete database: session `S` has messages 1-2; LoA
entry 1 covers range `[1,2]` (deleted), entry 2 is its child (deleted
recursively), entry 3 covers `[5,9]` (survives). -/
theorem deleteSession_cascade_spec_witness :
    (deleteSession
        ⟨[⟨"S"⟩, ⟨"T"⟩],
         [⟨1, "S", 10⟩, ⟨2, "S", 20⟩, ⟨3, "T", 30⟩],
         [⟨1, 5, some 1, some 2, none⟩, ⟨2, 6, none, none, some 1⟩,
          ⟨3, 7, some 5, some 9, none⟩]⟩ "S").2 = 2 ∧
    (⟨2, 6, none, none, some 1⟩ : LoaRow) ∉ (deleteSession
        ⟨[⟨"S"⟩, ⟨"T"⟩],
         [⟨1, "S", 10⟩, ⟨2, "S", 20⟩, ⟨3, "T", 30⟩],
         [⟨1, 5, some 1, some 2, none⟩, ⟨2, 6, none, none, some 1⟩,
          ⟨3, 7, some 5, some 9, none⟩]⟩ "S").1.loa_entries ∧
    (⟨3, 7, some 5, some 9, none⟩ : LoaRow) ∈ (deleteSession
        ⟨[⟨"S"⟩, ⟨"T"⟩],
         [⟨1, "S", 10⟩, ⟨2, "S", 20⟩, ⟨3, "T", 30⟩],
         [⟨1, 5, some 1, some 2, none⟩, ⟨2, 6, none, none, some 1⟩,
          ⟨3, 7, some 5, some 9, none⟩]⟩ "S").1.loa_entries := by
  have h := deleteSession_cascade_spec
    ⟨[⟨"S"⟩, ⟨"T"⟩],
     [⟨1, "S", 10⟩, ⟨2, "S", 20⟩, ⟨3, "T", 30⟩],
     [⟨1, 5, some 1, some 2, none⟩, ⟨2, 6, none, none, some 1⟩,
      ⟨3, 7, some 5, some 9, none⟩]⟩ "S"
  have hiff := (h.2.2.2.2.2.1 1 2 (by decide) (by decide)).2 (by decide)
  refine ⟨h.1, ?_, ?_⟩
  · intro hB
    have := (hiff ⟨2, 6, none, none, some 1⟩ (by decide)).mp hB 1
    exact this (by decide)
  · refine (hiff ⟨3, 7, some 5, some 9, none⟩ (by decide)).mpr ?_
    intro k
    match k with
    | 0 => decide
    | 1 => decide
    | (m + 2) =>
        rw [childIter_empty_stable _ _ (by decide : childIter
          [⟨1, 5, some 1, some 2, none⟩, ⟨2, 6, none, none, some 1⟩,
           ⟨3, 7, some 5, some 9, none⟩]
          (affectedLoaIds
            [⟨1, 5, some 1, some 2, none⟩, ⟨2, 6, none, none, some 1⟩,
             ⟨3, 7, some 5, some 9, none⟩] 1 2) 2 = []) (m + 2) (by omega)]
        exact List.not_mem_nil _

end LMF
